import Mathlib

/-!
# Verification of the private-journal entry persistence and retrieval subsystem

Shallow embedding of the TypeScript sources `src/paths.ts`, `src/journal.ts`
and `src/search.ts`.  Pure string manipulation is translated to Lean functions
on `String` / `List Char`; the filesystem is modelled as an explicit tree of
day directories holding named files; the external embedding engine (text to
vector, similarity scoring, JSON encoding/parsing of vector records) is passed
in as explicit function parameters, since the spec treats it as an opaque
external capability.  JavaScript numbers used for similarity scores are
modelled as rationals; epoch-millisecond timestamps as integers.
-/

set_option maxRecDepth 8000

namespace Journal

/-! ## Generic JavaScript string helpers (modelled on `List Char`) -/

/-- JS `String.prototype.endsWith`, via reversed prefix comparison. -/
def jsEndsWith (s suffix : String) : Bool :=
  suffix.data.reverse.isPrefixOf s.data.reverse

/-- JS `String.prototype.trim` on a character list: strip leading and trailing
whitespace. -/
def jsTrimL (cs : List Char) : List Char :=
  ((cs.dropWhile Char.isWhitespace).reverse.dropWhile Char.isWhitespace).reverse

/-- JS `String.prototype.trim`. -/
def jsTrim (s : String) : String :=
  String.mk (jsTrimL s.data)

/-- JS falsy-string coalescing `s || "general"` (empty string is falsy). -/
def orGeneral (s : String) : String :=
  if s = "" then "general" else s

/-! ## `src/paths.ts` -/

/-- One character of the allow-list `/^[a-zA-Z0-9\/_\-.\s]+$/` used by
`isValidPath` (JS `\s` is modelled by `Char.isWhitespace`). -/
def safePathChar (c : Char) : Bool :=
  c.isAlphanum || c == '/' || c == '_' || c == '-' || c == '.' || c.isWhitespace

/-- `isValidPath` from `src/paths.ts`: the whole path matches
`/^[a-zA-Z0-9\/_\-.\s]+$/` (hence is also non-empty, from the `+`). -/
def isValidPath (dirPath : String) : Bool :=
  !dirPath.data.isEmpty && dirPath.data.all safePathChar

/-- Node `path.basename` for POSIX paths: drop trailing slashes, then take the
final path component (empty when nothing remains, e.g. on `"/"`). -/
def basename (p : String) : String :=
  String.mk (((p.data.reverse.dropWhile (· == '/')).takeWhile (· != '/')).reverse)

/-- `detectProjectName` from `src/paths.ts`.  `home` stands for
`process.env.HOME || process.env.USERPROFILE || ''`; `git` models the outcome
of the `git rev-parse --show-toplevel` subprocess: `some out` is a successful
run printing `out`, `none` is any failure (exit status 128 "not a repository",
timeout, or any other error - the two catch branches of the source return the
same value, so they collapse).  Totality of this definition models the
"never throws" contract. -/
def detectProjectName (home dirPath : String) (git : Option String) : String :=
  if dirPath = home ∨ dirPath = "/" ∨ dirPath = "/tmp" then "general"
  else if ¬ isValidPath dirPath then orGeneral (basename dirPath)
  else
    match git with
    | some out => basename (jsTrim out)
    | none => orGeneral (basename dirPath)

/-! ## Line splitting

The text extractor and the entry formats are line-structured, so we model
splitting a character list at `'\n'` (every line-oriented regex of the source
operates this way). -/

/-- Split a character list into its lines at `'\n'` separators.  Always
returns at least one (possibly empty) line. -/
def splitLines : List Char → List (List Char)
  | [] => [[]]
  | c :: cs =>
    let r := splitLines cs
    if c = '\n' then [] :: r else (c :: r.headI) :: r.tail

/-! ## Text extractor (`extractSearchableText`)

Modelled from the spec: the Embedding Engine source file (`embeddings.ts`) is
not part of the provided sources - only its callers and tests are.  Per spec
section 4.2, `extractSearchableText(rawEntryContent)` strips a leading
metadata block delimited by a `---` marker at the very start and repeated once
more, records every section header (a line beginning with the fixed `## `
heading marker) in order, and concatenates the remaining body lines,
whitespace-separated, into the searchable text; a document without a metadata
block is treated entirely as body text. -/

/-- The `---` frontmatter delimiter line. -/
def hyphens : List Char := ['-', '-', '-']

/-- Does a line begin with the `## ` heading marker? -/
def isHeaderLine (l : List Char) : Bool :=
  ['#', '#', ' '].isPrefixOf l

/-- Modelled from the spec: drop the leading metadata block (a first line
`---` with a later repeated `---`), keeping the lines after the closing
marker; without such a block all lines are body lines. -/
def stripFrontmatter (lines : List (List Char)) : List (List Char) :=
  match lines with
  | first :: rest =>
    if first = hyphens ∧ rest.any (· == hyphens) then
      (rest.dropWhile (· != hyphens)).tail
    else first :: rest
  | [] => []

/-- Join character lists with single-space separators. -/
def joinSp : List (List Char) → List Char
  | [] => []
  | [l] => l
  | l :: ls => l ++ ' ' :: joinSp ls

/-- Modelled from the spec: `extractSearchableText` of the Embedding Engine
(`embeddings.ts` is absent from the sources).  Returns the whitespace-joined
body text and the section names in document order. -/
def extractSearchableText (content : String) : String × List String :=
  let body := stripFrontmatter (splitLines content.data)
  let sections := body.filterMap fun l =>
    if isHeaderLine l then some (String.mk (l.drop 3)) else none
  let text := String.mk (joinSp (body.filter (fun l => !isHeaderLine l)))
  (text, sections)

/-! ## Vector records and the storage tree -/

/-- `EmbeddingData` from `src/embeddings.ts` (interface shape pinned by the
tests and by spec section 6): the persisted vector record. -/
structure EmbeddingData where
  embedding : List ℚ
  text : String
  sections : List String
  timestamp : ℤ
  path : String
  project : Option String
  deriving Repr, DecidableEq

/-- One directory entry under the entries path: either a day directory with
its named files (name, raw content) or a stray plain file (skipped by every
scan). -/
inductive FsNode where
  | dir (name : String) (files : List (String × String))
  | file (name : String) (content : String)
  deriving Repr, DecidableEq

/-- The contents of the entries directory. -/
abbrev EntriesTree := List FsNode

/-- The day-directory name pattern `/^\d{4}-\d{2}-\d{2}$/`. -/
def matchDay (s : String) : Bool :=
  match s.data with
  | [a, b, c, d, e, f, g, h, i, j] =>
    a.isDigit && b.isDigit && c.isDigit && d.isDigit && e == '-' &&
    f.isDigit && g.isDigit && h == '-' && i.isDigit && j.isDigit
  | _ => false

/-- Is this node a directory called `day`? -/
def isDirNamed (day : String) (n : FsNode) : Bool :=
  match n with
  | .dir d _ => d == day
  | .file _ _ => false

/-- Files of the (first) day directory called `day`, empty if absent. -/
def dirFiles (tree : EntriesTree) (day : String) : List (String × String) :=
  match tree.find? (isDirNamed day) with
  | some (.dir _ fs) => fs
  | _ => []

/-- Does a day directory called `day` exist? -/
def dirHas (tree : EntriesTree) (day : String) : Bool :=
  tree.any (isDirNamed day)

/-- Is there a file called `name` in day directory `day`? (models `fs.access`) -/
def dirHasFile (tree : EntriesTree) (day name : String) : Bool :=
  (dirFiles tree day).any (·.1 == name)

/-- Content of file `name` in day directory `day` (models `fs.readFile`). -/
def dirRead (tree : EntriesTree) (day name : String) : Option String :=
  ((dirFiles tree day).find? (·.1 == name)).map (·.2)

/-- Write `content` to file `name` of a directory listing: overwrite in place
if present, else append (new files appear last in subsequent `readdir`s). -/
def dirWrite (files : List (String × String)) (name content : String) :
    List (String × String) :=
  if files.any (·.1 == name) then
    files.map fun f => if f.1 == name then (name, content) else f
  else files ++ [(name, content)]

/-- Rewrite one node: replace the file listing of the directory called `day`
by its updated listing, leave every other node alone. -/
def writeNode (day name content : String) (n : FsNode) : FsNode :=
  match n with
  | .dir d fs => if d == day then .dir d (dirWrite fs name content) else .dir d fs
  | .file a b => .file a b

/-- Write `content` to `day/name`, creating the day directory if absent
(models `fs.writeFile` after `ensureDirectoryExists`). -/
def treeWrite (tree : EntriesTree) (day name content : String) : EntriesTree :=
  if dirHas tree day then tree.map (writeNode day name content)
  else tree ++ [.dir day [(name, content)]]

/-! ## Entry store (`src/journal.ts`)

`writeEntry` / `writeThoughts` capture the current instant and working
directory from the ambient process; those environmental values (the two
locale-formatted display strings, the ISO string, the epoch milliseconds, the
day-directory name from `formatDate`, the collision-resistant file base name
from `formatTimestamp`, and the detected project name) enter the model as
parameters. -/

/-- The timestamp captured at the start of a write, in the four renderings the
source derives from the one `Date` value. -/
structure Stamp where
  timeDisplay : String
  dateDisplay : String
  iso : String
  epochMs : ℤ
  deriving Repr, DecidableEq

/-- Argument of `writeThoughts`; JS truthiness makes `undefined` and `""`
equivalent for section inclusion. -/
structure Thoughts where
  user : Option String
  projectNotes : Option String
  reflections : Option String
  deriving Repr, DecidableEq

/-- The YAML-like metadata block shared by both entry formats. -/
def frontmatter (stamp : Stamp) (projectName : String) : String :=
  "---\ntitle: \"" ++ stamp.timeDisplay ++ " - " ++ stamp.dateDisplay ++
  "\"\ndate: " ++ stamp.iso ++
  "\ntimestamp: " ++ toString stamp.epochMs ++
  "\nproject: " ++ projectName ++ "\n---\n\n"

/-- `formatEntry` from `src/journal.ts`. -/
def formatEntry (content : String) (stamp : Stamp) (projectName : String) : String :=
  frontmatter stamp projectName ++ content ++ "\n"

/-- The section blocks pushed by `formatThoughts` (a section is included iff
its value is truthy, i.e. present and non-empty). -/
def thoughtSections (t : Thoughts) : List String :=
  (match t.user with
   | some s => if s = "" then [] else ["## User\n\n" ++ s]
   | none => []) ++
  (match t.projectNotes with
   | some s => if s = "" then [] else ["## Project\n\n" ++ s]
   | none => []) ++
  (match t.reflections with
   | some s => if s = "" then [] else ["## Reflections\n\n" ++ s]
   | none => [])

/-- JS `Array.prototype.join(sep)`. -/
def strJoin (sep : String) : List String → String
  | [] => ""
  | [a] => a
  | a :: b :: rest => a ++ sep ++ strJoin sep (b :: rest)

/-- `formatThoughts` from `src/journal.ts`. -/
def formatThoughts (t : Thoughts) (stamp : Stamp) (projectName : String) : String :=
  frontmatter stamp projectName ++ strJoin "\n\n" (thoughtSections t) ++ "\n"

/-- The companion vector-record file name: `filePath.replace(/\.md$/, '.embedding')`. -/
def embeddingPathOf (name : String) : String :=
  if jsEndsWith name ".md" then
    String.mk (name.data.take (name.data.length - 3)) ++ ".embedding"
  else name

/-- The external embedding capability as seen by the writer: fallible vector
generation, fallible persistence (`saveOk` tells whether writing the record
for a given entry path succeeds), and the JSON encoding of a record.  All
three live in the absent `embeddings.ts` and are opaque per spec section 1. -/
structure WriteEngine where
  embed : String → Except String (List ℚ)
  saveOk : String → Bool
  encode : EmbeddingData → String

/-- `generateEmbeddingForEntry` from `src/journal.ts`: extract the searchable
text; empty (after trimming) text is skipped with success; an embedding or
persistence failure is caught and reported as `false`, never thrown.  On
success the record is written next to the entry. -/
def generateEmbeddingForEntry (eng : WriteEngine) (tree : EntriesTree)
    (day fileName content : String) (ts : ℤ) (projectName : String) :
    Bool × EntriesTree :=
  let ex := extractSearchableText content
  if (jsTrimL ex.1.data).isEmpty then (true, tree)
  else
    match eng.embed ex.1 with
    | .error _ => (false, tree)
    | .ok v =>
      let d : EmbeddingData :=
        { embedding := v, text := ex.1, sections := ex.2, timestamp := ts,
          path := day ++ "/" ++ fileName, project := some projectName }
      if eng.saveOk (day ++ "/" ++ fileName) then
        (true, treeWrite tree day (embeddingPathOf fileName) (eng.encode d))
      else (false, tree)

/-- `writeEntry` from `src/journal.ts`.  `mkdirOk` models whether
`fs.mkdir` can create a missing day directory; its failure is the only fatal
error of the write path. -/
def writeEntry (eng : WriteEngine) (mkdirOk : Bool) (tree : EntriesTree)
    (stamp : Stamp) (dateString fileBase projectName content : String) :
    Except String (Bool × EntriesTree) :=
  if !dirHas tree dateString && !mkdirOk then
    .error ("Failed to create journal directory at " ++ dateString)
  else
    let fileName := fileBase ++ ".md"
    let formatted := formatEntry content stamp projectName
    let tree1 := treeWrite tree dateString fileName formatted
    let r := generateEmbeddingForEntry eng tree1 dateString fileName formatted
      stamp.epochMs projectName
    .ok r

/-- `writeThoughts` from `src/journal.ts`. -/
def writeThoughts (eng : WriteEngine) (mkdirOk : Bool) (tree : EntriesTree)
    (stamp : Stamp) (dateString fileBase projectName : String) (t : Thoughts) :
    Except String (Bool × EntriesTree) :=
  if !dirHas tree dateString && !mkdirOk then
    .error ("Failed to create journal directory at " ++ dateString)
  else
    let fileName := fileBase ++ ".md"
    let formatted := formatThoughts t stamp projectName
    let tree1 := treeWrite tree dateString fileName formatted
    let r := generateEmbeddingForEntry eng tree1 dateString fileName formatted
      stamp.epochMs projectName
    .ok r

/-! ## Retrieval (`src/search.ts`) -/

/-- `SearchOptions.dateRange`; `stop` models the source field `end` (a Lean
keyword).  Both bounds are epoch-millisecond instants. -/
structure DateRange where
  start : Option ℤ
  stop : Option ℤ
  deriving Repr, DecidableEq

/-- `SearchOptions` from `src/search.ts`: `none` models an absent field. -/
structure SearchOptions where
  limit : Option ℕ := none
  minScore : Option ℚ := none
  sections : Option (List String) := none
  dateRange : Option DateRange := none
  project : Option String := none
  deriving Repr, DecidableEq

/-- `SearchResult` from `src/search.ts` (the per-result `warning` field is
never populated by the source, so it is omitted). -/
structure SearchResult where
  path : String
  score : ℚ
  text : String
  sections : List String
  timestamp : ℤ
  excerpt : String
  project : Option String
  deriving Repr, DecidableEq

/-- Result pair of `search` / `listRecent`. -/
structure SearchOutput where
  results : List SearchResult
  warning : Option String
  deriving Repr, DecidableEq

/-- The external embedding capability as seen by the reader: query embedding
and cosine similarity (spec section 4.3; scores modelled as rationals). -/
structure SearchEngine where
  genEmbedding : String → List ℚ
  cosineSimilarity : List ℚ → List ℚ → ℚ

/-- The parse loop body of `loadEmbeddingsFromPath`: read each record file,
collecting parsed records in order and counting files the JSON parse/cast
(the `parse` parameter) rejects. -/
def loadFiles (parse : String → Option EmbeddingData) :
    List (String × String) → List EmbeddingData × ℕ
  | [] => ([], 0)
  | f :: fs =>
    let rest := loadFiles parse fs
    match parse f.2 with
    | some d => (d :: rest.1, rest.2)
    | none => (rest.1, rest.2 + 1)

/-- Load the `.embedding` files of one day directory. -/
def loadDir (parse : String → Option EmbeddingData)
    (files : List (String × String)) : List EmbeddingData × ℕ :=
  loadFiles parse (files.filter fun f => jsEndsWith f.1 ".embedding")

/-- `loadEmbeddingsFromPath` from `src/search.ts`: walk the day directories
(only names matching the calendar pattern), load every `.embedding` file,
skipping and counting unparseable ones. -/
def loadEmbeddingsFromPath (parse : String → Option EmbeddingData) :
    EntriesTree → List EmbeddingData × ℕ
  | [] => ([], 0)
  | .file _ _ :: rest => loadEmbeddingsFromPath parse rest
  | .dir name files :: rest =>
    let r := loadEmbeddingsFromPath parse rest
    if matchDay name then
      ((loadDir parse files).1 ++ r.1, (loadDir parse files).2 + r.2)
    else r

/-- Stable insertion (descending by `key`) modelling the JS stable
`Array.prototype.sort` with comparator `(a, b) => key b - key a`. -/
def insDesc {α β : Type} [LinearOrder β] (key : α → β) (x : α) :
    List α → List α
  | [] => [x]
  | y :: ys => if key y ≤ key x then x :: y :: ys else y :: insDesc key x ys

/-- Stable sort, descending by `key`. -/
def sortDesc {α β : Type} [LinearOrder β] (key : α → β) : List α → List α
  | [] => []
  | x :: xs => insDesc key x (sortDesc key xs)

/-! ### Excerpt generation -/

/-- Ellipsis marker appended/prepended to clipped excerpts. -/
def ellipsis : List Char := ['.', '.', '.']

/-- JS `hay.includes(needle)` on character lists: `needle` occurs contiguously
inside `hay`. -/
def isSubstr (needle hay : List Char) : Bool :=
  hay.tails.any (needle.isPrefixOf ·)

/-- Maximal runs of non-whitespace characters, via a right fold carrying the
currently open run. -/
def wsRunsCore (cs : List Char) : Option (List Char) × List (List Char) :=
  cs.foldr
    (fun c acc =>
      if c.isWhitespace then
        match acc.1 with
        | some r => (none, r :: acc.2)
        | none => acc
      else (some (c :: acc.1.getD []), acc.2))
    (none, [])

/-- The maximal non-whitespace runs of a character list, in order. -/
def wsRuns (cs : List Char) : List (List Char) :=
  match wsRunsCore cs with
  | (some r, rs) => r :: rs
  | (none, rs) => rs

/-- JS `String.prototype.split(/\s+/)`: the non-whitespace runs, plus an empty
token at the front (resp. back) when the string starts (resp. ends) with
whitespace; splitting the empty string yields `[""]`. -/
def jsSplitWsL (cs : List Char) : List (List Char) :=
  match cs with
  | [] => [[]]
  | c :: _ =>
    (if c.isWhitespace then [[]] else []) ++ wsRuns cs ++
    (match cs.getLast? with
     | some d => if d.isWhitespace then [[]] else []
     | none => [])

/-- Score of one excerpt window: one point per query token (with
multiplicity) occurring in the window (`window.includes(word)`). -/
def windowScoreL (queryWords : List (List Char)) (window : List Char) : ℕ :=
  queryWords.foldl (fun sum w => sum + (if isSubstr w window then 1 else 0)) 0

/-- The window start positions tried by the excerpt loop
`for (i = 0; i <= text.length - maxLength; i += 20)` (none when the text is
shorter than the window). -/
def excerptPositions (len mx : ℕ) : List ℕ :=
  if mx ≤ len then (List.range ((len - mx) / 20 + 1)).map (· * 20) else []

/-- The fold step keeping the first window of maximal score (strict
improvement only, starting from `bestScore = 0` at position `0`). -/
def bestStep (score : ℕ → ℕ) (b : ℕ × ℕ) (i : ℕ) : ℕ × ℕ :=
  if b.2 < score i then (i, score i) else b

/-- `generateExcerpt` from `src/search.ts`, on character lists. -/
def generateExcerptL (text query : List Char) (mx : ℕ) : List Char :=
  if jsTrimL query = [] then
    text.take mx ++ (if mx < text.length then ellipsis else [])
  else
    let queryWords := jsSplitWsL (query.map Char.toLower)
    let textLower := text.map Char.toLower
    let score := fun i => windowScoreL queryWords ((textLower.drop i).take mx)
    let best := (excerptPositions text.length mx).foldl (bestStep score) (0, 0)
    (if 0 < best.1 then ellipsis else []) ++ (text.drop best.1).take mx ++
      (if best.1 + mx < text.length then ellipsis else [])

/-- `generateExcerpt` from `src/search.ts` (default window 200). -/
def generateExcerpt (text query : String) (mx : ℕ := 200) : String :=
  String.mk (generateExcerptL text.data query.data mx)

/-! ### Filtering, search and listRecent -/

/-- JS `hay.includes(needle)` (substring containment). -/
def jsIncludes (hay needle : String) : Bool :=
  isSubstr needle.data hay.data

/-- The conjunction of the three option filters of `SearchService.search`:
project (skipped for a falsy filter value), sections (case-insensitive
substring match against any recorded section), inclusive date range. -/
def passesFilters (opts : SearchOptions) (e : EmbeddingData) : Bool :=
  (match opts.project with
   | some p => p == "" || e.project == some p
   | none => true) &&
  (match opts.sections with
   | some ss =>
     ss.isEmpty ||
       ss.any fun s => e.sections.any fun es => jsIncludes es.toLower s.toLower
   | none => true) &&
  (match opts.dateRange with
   | some dr =>
     (match dr.start with
      | some s => !decide (e.timestamp < s)
      | none => true) &&
     (match dr.stop with
      | some t => !decide (t < e.timestamp)
      | none => true)
   | none => true)

/-- Project-and-date-only filter used by `listRecent` (its destructuring
ignores the `sections` and `minScore` options entirely). -/
def passesRecentFilters (opts : SearchOptions) (e : EmbeddingData) : Bool :=
  (match opts.project with
   | some p => p == "" || e.project == some p
   | none => true) &&
  (match opts.dateRange with
   | some dr =>
     (match dr.start with
      | some s => !decide (e.timestamp < s)
      | none => true) &&
     (match dr.stop with
      | some t => !decide (t < e.timestamp)
      | none => true)
   | none => true)

/-- Build one `SearchResult` from a surviving record. -/
def mkResult (eng : SearchEngine) (queryEmbedding : List ℚ) (query : String)
    (e : EmbeddingData) : SearchResult :=
  { path := e.path,
    score := eng.cosineSimilarity queryEmbedding e.embedding,
    text := e.text,
    sections := e.sections,
    timestamp := e.timestamp,
    excerpt := generateExcerpt e.text query,
    project := e.project }

/-- The partial-failure warning attached by `search`. -/
def searchWarnMsg (n : ℕ) : String :=
  "Warning: " ++ toString n ++
    " embedding(s) failed to load. Some entries may not appear in search results."

/-- The partial-failure warning attached by `listRecent`. -/
def recentWarnMsg (n : ℕ) : String :=
  "Warning: " ++ toString n ++
    " embedding(s) failed to load. Some entries may not appear in results."

/-- `SearchService.search`: load everything, filter, score, threshold, sort
descending by score, truncate, and attach a warning when records failed to
load. -/
def search (eng : SearchEngine) (parse : String → Option EmbeddingData)
    (tree : EntriesTree) (query : String) (opts : SearchOptions) : SearchOutput :=
  let queryEmbedding := eng.genEmbedding query
  let loaded := loadEmbeddingsFromPath parse tree
  let filtered := loaded.1.filter (passesFilters opts)
  let results :=
    (sortDesc (·.score)
        ((filtered.map (mkResult eng queryEmbedding query)).filter
          fun r => decide (opts.minScore.getD (1 / 10) ≤ r.score))).take
      (opts.limit.getD 10)
  { results := results,
    warning := if 0 < loaded.2 then some (searchWarnMsg loaded.2) else none }

/-- The fixed-score result built by `listRecent` for one record (score `1`
signals "no relevance score computed", excerpts are 150 characters). -/
def recentResult (e : EmbeddingData) : SearchResult :=
  { path := e.path, score := 1, text := e.text, sections := e.sections,
    timestamp := e.timestamp, excerpt := generateExcerpt e.text "" 150,
    project := e.project }

/-- `SearchService.listRecent`: same loading, project/date filtering only,
ranked by timestamp descending, fixed score 1, 150-character excerpts. -/
def listRecent (eng : SearchEngine) (parse : String → Option EmbeddingData)
    (tree : EntriesTree) (opts : SearchOptions) : SearchOutput :=
  let loaded := loadEmbeddingsFromPath parse tree
  let filtered := loaded.1.filter (passesRecentFilters opts)
  let results :=
    ((sortDesc (·.timestamp) filtered).take (opts.limit.getD 10)).map recentResult
  { results := results,
    warning := if 0 < loaded.2 then some (recentWarnMsg loaded.2) else none }

/-- Remove exactly the unparseable `.embedding` files from every directory
(used to state that corrupt records are skipped without affecting the rest). -/
def pruneCorrupt (parse : String → Option EmbeddingData) (tree : EntriesTree) :
    EntriesTree :=
  tree.map fun n =>
    match n with
    | .dir d fs =>
      .dir d (fs.filter fun f => !(jsEndsWith f.1 ".embedding" && (parse f.2).isNone))
    | .file a b => .file a b

/-! ## Missing-embeddings backfill (`generateMissingEmbeddings`) -/

/-- The calendar/clock fields recovered by `extractTimestampFromPath` from the
file base name `HH-MM-SS-ssssss` and the day-directory name `YYYY-MM-DD`. -/
structure DateParts where
  year : ℕ
  month : ℕ
  day : ℕ
  hour : ℕ
  minute : ℕ
  second : ℕ
  deriving Repr, DecidableEq

/-- Two decimal digit characters as a number. -/
def twoDigits (a b : Char) : ℕ :=
  (a.toNat - '0'.toNat) * 10 + (b.toNat - '0'.toNat)

/-- `extractTimestampFromPath` from `src/journal.ts`: match the file base name
(`path.basename(filePath, '.md')`) against `/^(\d{2})-(\d{2})-(\d{2})-\d{6}$/`
and the parent directory name against `/^(\d{4})-(\d{2})-(\d{2})$/`.  The
conversion of the matched fields to epoch milliseconds (`new Date(...)`,
local-timezone calendar arithmetic) stays abstract: callers supply it. -/
def extractTimestampFromPath (day fileName : String) : Option DateParts :=
  let base :=
    if jsEndsWith fileName ".md" then fileName.data.take (fileName.data.length - 3)
    else fileName.data
  match base with
  | [h1, h2, '-', m1, m2, '-', s1, s2, '-', u1, u2, u3, u4, u5, u6] =>
    if h1.isDigit && h2.isDigit && m1.isDigit && m2.isDigit && s1.isDigit &&
        s2.isDigit && u1.isDigit && u2.isDigit && u3.isDigit && u4.isDigit &&
        u5.isDigit && u6.isDigit then
      match day.data with
      | [y1, y2, y3, y4, '-', n1, n2, '-', d1, d2] =>
        if y1.isDigit && y2.isDigit && y3.isDigit && y4.isDigit && n1.isDigit &&
            n2.isDigit && d1.isDigit && d2.isDigit then
          some { year := twoDigits y1 y2 * 100 + twoDigits y3 y4,
                 month := twoDigits n1 n2, day := twoDigits d1 d2,
                 hour := twoDigits h1 h2, minute := twoDigits m1 m2,
                 second := twoDigits s1 s2 }
        else none
      | _ => none
    else none
  | _ => none

/-- The ambient context of one backfill run: the frontmatter project
extraction (`extractProjectFromContent`, an opaque regex over the raw entry -
its result never influences the structural claims proved here), the
local-calendar conversion used by `new Date(y, m, d, h, mi, s).getTime()`, the
current instant, and the current-context fallback project
(`detectProjectName(process.cwd())`). -/
structure BackfillCtx where
  extractProject : String → Option String
  dateToMs : DateParts → ℤ
  nowMs : ℤ
  fallbackProject : String

/-- Backfill one entry file: skip it when its companion record already exists
on the (live) tree, otherwise regenerate the record from the entry's own
content and count the attempt. -/
def backfillFile (eng : WriteEngine) (ctx : BackfillCtx) (day : String)
    (st : ℕ × EntriesTree) (f : String × String) : ℕ × EntriesTree :=
  if dirHasFile st.2 day (embeddingPathOf f.1) then st
  else
    let ts := ((extractTimestampFromPath day f.1).map ctx.dateToMs).getD ctx.nowMs
    let proj := (ctx.extractProject f.2).getD ctx.fallbackProject
    (st.1 + 1, (generateEmbeddingForEntry eng st.2 day f.1 f.2 ts proj).2)

/-- Backfill one day directory: iterate over the `.md` files of its `readdir`
snapshot (entry files are never modified during the run, so snapshot contents
equal live contents). -/
def backfillDir (eng : WriteEngine) (ctx : BackfillCtx) (day : String)
    (files : List (String × String)) (st : ℕ × EntriesTree) : ℕ × EntriesTree :=
  (files.filter fun f => jsEndsWith f.1 ".md").foldl (backfillFile eng ctx day) st

/-- One step of the day-directory loop of `generateMissingEmbeddings`:
non-directory entries and directories whose name does not match the calendar
pattern are skipped. -/
def gmStep (eng : WriteEngine) (ctx : BackfillCtx)
    (st : ℕ × EntriesTree) (n : FsNode) : ℕ × EntriesTree :=
  match n with
  | .dir day files => if matchDay day then backfillDir eng ctx day files st else st
  | .file _ _ => st

/-- `generateMissingEmbeddings` from `src/journal.ts`: scan the day
directories, regenerate records for entries lacking one, and return the count
of processed entries. -/
def generateMissingEmbeddings (eng : WriteEngine) (ctx : BackfillCtx)
    (tree : EntriesTree) : ℕ × EntriesTree :=
  tree.foldl (gmStep eng ctx) (0, tree)

/-- Static count of entry files lacking a companion record in one directory
listing. -/
def countMissingDir (files : List (String × String)) : ℕ :=
  (files.filter fun f => jsEndsWith f.1 ".md").countP
    fun f => !(files.any (·.1 == embeddingPathOf f.1))

/-- Static count of entry files lacking a companion record in the whole tree
(day directories matching the calendar pattern only). -/
def countMissing : EntriesTree → ℕ
  | [] => 0
  | .file _ _ :: rest => countMissing rest
  | .dir day files :: rest =>
    (if matchDay day then countMissingDir files else 0) + countMissing rest

/-- The day-directory names of the tree, in `readdir` order. -/
def dayNames (tree : EntriesTree) : List String :=
  tree.filterMap fun n =>
    match n with | .dir d _ => some d | .file _ _ => none

/-- Well-formed storage tree: day-directory names are distinct and so are the
file names within each directory (true of any real directory hierarchy). -/
def wfTree (tree : EntriesTree) : Prop :=
  (dayNames tree).Nodup ∧
  ∀ d fs, FsNode.dir d fs ∈ tree → (fs.map (·.1)).Nodup

/-- Unparseable `.embedding` files of one directory listing. -/
def corruptCountDir (parse : String → Option EmbeddingData)
    (files : List (String × String)) : ℕ :=
  (files.filter fun f => jsEndsWith f.1 ".embedding").countP
    fun f => (parse f.2).isNone

/-- Unparseable `.embedding` files across the scanned day directories. -/
def corruptCount (parse : String → Option EmbeddingData) : EntriesTree → ℕ
  | [] => 0
  | .file _ _ :: rest => corruptCount parse rest
  | .dir day files :: rest =>
    (if matchDay day then corruptCountDir parse files else 0) +
      corruptCount parse rest

/-! ## Concrete instances used by witnesses and counterexamples -/

/-- A trivial always-succeeding search engine. -/
def egSearchEngine : SearchEngine :=
  { genEmbedding := fun _ => [1], cosineSimilarity := fun _ _ => 1 }

/-- A toy record parser: accepts only the content `"REC"`. -/
def egParse : String → Option EmbeddingData := fun s =>
  if s = "REC" then
    some { embedding := [1], text := "alpha text", sections := ["User"],
           timestamp := 0, path := "2024-01-15/a.md", project := some "alpha" }
  else none

/-- A one-record storage tree. -/
def egTree : EntriesTree := [.dir "2024-01-15" [("a.embedding", "REC")]]

/-- An engine whose embedding backend is down (every call fails). -/
def egFailEngine : WriteEngine :=
  { embed := fun _ => Except.error "model unavailable",
    saveOk := fun _ => true, encode := fun _ => "{}" }

/-- An engine whose backend always succeeds. -/
def egOkEngine : WriteEngine :=
  { embed := fun _ => Except.ok [1], saveOk := fun _ => true,
    encode := fun _ => "{}" }

/-- A concrete write-instant. -/
def egStamp : Stamp :=
  { timeDisplay := "10:00:00 AM", dateDisplay := "May 31, 2025",
    iso := "2025-05-31T10:00:00.000Z", epochMs := 1748685600000 }

/-- Thoughts with one non-empty section. -/
def egThoughts : Thoughts :=
  { user := some "hello there", projectNotes := none, reflections := none }

/-- Thoughts whose only supplied section value is whitespace. -/
def egWsThoughts : Thoughts :=
  { user := some "  ", projectNotes := none, reflections := some " " }

/-- A backfill context with trivial environment values. -/
def egCtx : BackfillCtx :=
  { extractProject := fun _ => none, dateToMs := fun _ => 0, nowMs := 0,
    fallbackProject := "general" }

/-- One day directory holding a single entry file with empty content and no
companion record. -/
def egC2Tree : EntriesTree :=
  [.dir "2024-01-01" [("10-00-00-000000.md", "")]]

/-- All characters of an optional section value (absent = empty) are
whitespace. -/
abbrev wsOpt (o : Option String) : Prop :=
  ∀ c ∈ (o.getD "").data, c.isWhitespace = true

/-- The source's window score for the window of width `mx` starting at
position `i`: query tokens counted with multiplicity. -/
def tokenScoreL (text query : List Char) (i mx : ℕ) : ℕ :=
  windowScoreL (jsSplitWsL (query.map Char.toLower))
    (((text.map Char.toLower).drop i).take mx)

/-- `tokenScoreL` on strings. -/
def queryTokenScore (text query : String) (i mx : ℕ) : ℕ :=
  tokenScoreL text.data query.data i mx

/-- Following the claim's words, for comparison with `queryTokenScore`: the
count of *distinct* query words contained in the window of width `mx`
starting at position `i`. -/
def specDistinctWindowScore (text query : String) (i mx : ℕ) : ℕ :=
  (jsSplitWsL (query.data.map Char.toLower)).dedup.countP
    fun w => isSubstr w (((text.data.map Char.toLower).drop i).take mx)

/-- 220-character text whose first window contains only the (duplicated)
query word `foo` and whose second window contains the two distinct query
words `bar` and `baz`. -/
def c8Text : String :=
  "foo " ++ String.mk (List.replicate 196 'x') ++ " bar baz xxxxxxxxxxx"

/-- Query with a repeated word, giving the first window multiplicity score 2
but distinct-word score 1. -/
def c8Query : String := "foo foo bar baz"

/-- The window of `c8Text` starting at position 0. -/
def c8Window0 : String := "foo " ++ String.mk (List.replicate 196 'x')

/-! ## Theorems -/

/-- **C1, counterexample.**  `/tmp/random-folder` resides in no repository
(the subprocess fails), is no special path, and passes the character
validation, yet `detectProjectName` returns its basename `"random-folder"`,
not the sentinel `"general"` (this matches the repository's own test
"should return directory basename when not in git repo"). -/
theorem detectProjectName_not_general :
    detectProjectName "/home/user" "/tmp/random-folder" none = "random-folder" ∧
      "random-folder" ≠ "general" := by
  constructor
  · rfl
  · decide

/-- **C1, amended.**  For every working path that is not the home directory,
`/`, or `/tmp`, if repository detection does not succeed (the subprocess
fails for any reason, or the path is rejected by the safe-character
validation so the subprocess is never run), `detectProjectName` returns the
path's basename, falling back to the sentinel `"general"` only when that
basename is empty; being a total function, it never throws. -/
theorem detectProjectName_basename_fallback (home p : String) (git : Option String)
    (h1 : p ≠ home) (h2 : p ≠ "/") (h3 : p ≠ "/tmp")
    (h4 : git = none ∨ isValidPath p = false) :
    detectProjectName home p git = orGeneral (basename p) := by
  unfold detectProjectName
  rw [if_neg (by tauto)]
  rcases h4 with h4 | h4
  · subst h4
    by_cases hv : isValidPath p <;> simp [hv]
  · simp [h4]

/-- **C1, witness** for the amended theorem at a concrete non-repository
path. -/
theorem detectProjectName_basename_fallback_witness :
    detectProjectName "/home/user" "/foo/bar" none = orGeneral (basename "/foo/bar") :=
  detectProjectName_basename_fallback "/home/user" "/foo/bar" none
    (by decide) (by decide) (by decide) (Or.inl rfl)

/-- **C9.**  `listRecent` destructures only `limit`, `project` and
`dateRange` from its options, so any `sections` filter is ignored: the result
is identical with the filter replaced by any other value (in particular by
its absence). -/
theorem listRecent_ignores_sections (eng : SearchEngine)
    (parse : String → Option EmbeddingData) (tree : EntriesTree)
    (opts : SearchOptions) (ss : Option (List String)) :
    listRecent eng parse tree { opts with sections := ss } =
      listRecent eng parse tree opts := rfl

/-! ### Sorting helper lemmas -/

theorem mem_insDesc {α β : Type} [LinearOrder β] (key : α → β) (x a : α) :
    ∀ l : List α, a ∈ insDesc key x l ↔ a = x ∨ a ∈ l := by
  intro l
  induction l with
  | nil => simp [insDesc]
  | cons y ys ih =>
    by_cases h : key y ≤ key x
    · simp [insDesc, h]
    · simp only [insDesc, if_neg h, List.mem_cons, ih]
      tauto

theorem mem_sortDesc {α β : Type} [LinearOrder β] (key : α → β) (a : α) :
    ∀ l : List α, a ∈ sortDesc key l ↔ a ∈ l := by
  intro l
  induction l with
  | nil => simp [sortDesc]
  | cons y ys ih => simp [sortDesc, mem_insDesc, ih]

theorem pairwise_insDesc {α β : Type} [LinearOrder β] (key : α → β) (x : α) :
    ∀ l : List α, l.Pairwise (fun a b => key b ≤ key a) →
      (insDesc key x l).Pairwise (fun a b => key b ≤ key a) := by
  intro l
  induction l with
  | nil => simp [insDesc]
  | cons y ys ih =>
    intro h
    rw [List.pairwise_cons] at h
    by_cases hxy : key y ≤ key x
    · rw [insDesc, if_pos hxy, List.pairwise_cons]
      refine ⟨?_, List.pairwise_cons.2 h⟩
      intro b hb
      rcases List.mem_cons.1 hb with hb | hb
      · exact hb ▸ hxy
      · exact le_trans (h.1 b hb) hxy
    · rw [insDesc, if_neg hxy, List.pairwise_cons]
      refine ⟨?_, ih h.2⟩
      intro b hb
      rcases (mem_insDesc key x b ys).1 hb with hb | hb
      · exact hb ▸ le_of_lt (lt_of_not_le hxy)
      · exact h.1 b hb

theorem pairwise_sortDesc {α β : Type} [LinearOrder β] (key : α → β) :
    ∀ l : List α, (sortDesc key l).Pairwise (fun a b => key b ≤ key a) := by
  intro l
  induction l with
  | nil => simp [sortDesc]
  | cons y ys ih => exact pairwise_insDesc key y _ ih

/-- **C5.**  Every `search` result list is sorted by descending similarity
score, free of scores below the minimum threshold (default `1/10`), and no
longer than the result limit (default `10`). -/
theorem search_sorted_thresholded_bounded (eng : SearchEngine)
    (parse : String → Option EmbeddingData) (tree : EntriesTree)
    (query : String) (opts : SearchOptions) :
    (search eng parse tree query opts).results.Pairwise
        (fun a b => b.score ≤ a.score) ∧
      (∀ r ∈ (search eng parse tree query opts).results,
        opts.minScore.getD (1 / 10) ≤ r.score) ∧
      (search eng parse tree query opts).results.length ≤ opts.limit.getD 10 := by
  have hres : (search eng parse tree query opts).results =
      (sortDesc (fun r : SearchResult => r.score)
          (((((loadEmbeddingsFromPath parse tree).1.filter
              (passesFilters opts)).map
            (mkResult eng (eng.genEmbedding query) query)).filter
            fun r => decide (opts.minScore.getD (1 / 10) ≤ r.score)))).take
        (opts.limit.getD 10) := rfl
  rw [hres]
  refine ⟨?_, ?_, ?_⟩
  · exact (pairwise_sortDesc (fun r : SearchResult => r.score) _).sublist
      (List.take_sublist _ _)
  · intro r hr
    have hr' := (mem_sortDesc (fun r : SearchResult => r.score) r _).1
      (List.take_subset _ _ hr)
    exact of_decide_eq_true (List.mem_filter.1 hr').2
  · exact List.length_take_le _ _

/-- **C6.**  With a (non-empty, as project tags always are) project filter,
every `search` result carries exactly that project tag, and when no loaded
record carries the tag the result list is empty - no error is possible, as
`search` is total. -/
theorem search_project_filter_exact (eng : SearchEngine)
    (parse : String → Option EmbeddingData) (tree : EntriesTree)
    (query : String) (opts : SearchOptions) (p : String)
    (hp : opts.project = some p) (hne : p ≠ "") :
    (∀ r ∈ (search eng parse tree query opts).results, r.project = some p) ∧
      ((∀ e ∈ (loadEmbeddingsFromPath parse tree).1, e.project ≠ some p) →
        (search eng parse tree query opts).results = []) := by
  have hres : (search eng parse tree query opts).results =
      (sortDesc (fun r : SearchResult => r.score)
          (((((loadEmbeddingsFromPath parse tree).1.filter
              (passesFilters opts)).map
            (mkResult eng (eng.genEmbedding query) query)).filter
            fun r => decide (opts.minScore.getD (1 / 10) ≤ r.score)))).take
        (opts.limit.getD 10) := rfl
  constructor
  · intro r hr
    rw [hres] at hr
    have hr' := (mem_sortDesc (fun r : SearchResult => r.score) r _).1
      (List.take_subset _ _ hr)
    have hr'' := (List.mem_filter.1 hr').1
    obtain ⟨e, he, hmk⟩ := List.mem_map.1 hr''
    have hpass := (List.mem_filter.1 he).2
    rw [passesFilters, hp] at hpass
    simp only [Bool.and_eq_true, Bool.or_eq_true, beq_iff_eq] at hpass
    have hproj : e.project = some p := by
      rcases hpass.1.1 with h | h
      · exact absurd h hne
      · exact h
    rw [← hmk]
    exact hproj
  · intro hnone
    have hfilter :
        (loadEmbeddingsFromPath parse tree).1.filter (passesFilters opts) = [] := by
      rw [List.filter_eq_nil_iff]
      intro e he
      have he' := hnone e he
      have h1 : (p == "") = false := by simpa using hne
      have h2 : (e.project == some p) = false := by simpa using he'
      rw [passesFilters, hp]
      simp [h1, h2]
    rw [hres, hfilter]
    simp [sortDesc]

/-- **C6, witness**: filtering the one-`"alpha"`-record tree by project
`"beta"` yields the empty result list rather than an error. -/
theorem search_project_filter_exact_witness :
    (∀ r ∈ (search egSearchEngine egParse egTree "q"
        { project := some "beta" }).results, r.project = some "beta") ∧
      ((∀ e ∈ (loadEmbeddingsFromPath egParse egTree).1,
          e.project ≠ some "beta") →
        (search egSearchEngine egParse egTree "q"
          { project := some "beta" }).results = []) :=
  search_project_filter_exact egSearchEngine egParse egTree "q"
    { project := some "beta" } "beta" rfl (by decide)

/-! ### Loading lemmas: corrupt records are counted and skipped -/

theorem loadFiles_snd (parse : String → Option EmbeddingData) :
    ∀ l, (loadFiles parse l).2 = l.countP fun f => (parse f.2).isNone := by
  intro l
  induction l with
  | nil => rfl
  | cons f fs ih =>
    cases hp : parse f.2 <;>
      simp [loadFiles, List.countP_cons, hp, ih]

theorem load_snd (parse : String → Option EmbeddingData) :
    ∀ tree, (loadEmbeddingsFromPath parse tree).2 = corruptCount parse tree := by
  intro tree
  induction tree with
  | nil => rfl
  | cons n rest ih =>
    cases n with
    | file a b => simpa [loadEmbeddingsFromPath, corruptCount] using ih
    | dir day files =>
      by_cases hd : matchDay day <;>
        simp [loadEmbeddingsFromPath, corruptCount, hd, ih, loadDir,
          loadFiles_snd, corruptCountDir]

theorem loadFiles_prune (parse : String → Option EmbeddingData) :
    ∀ l, loadFiles parse (l.filter fun f => (parse f.2).isSome) =
      ((loadFiles parse l).1, 0) := by
  intro l
  induction l with
  | nil => rfl
  | cons f fs ih =>
    cases hp : parse f.2 with
    | none =>
      rw [List.filter_cons_of_neg (by simp [hp])]
      rw [ih]
      simp only [loadFiles, hp]
    | some d =>
      rw [List.filter_cons_of_pos (by simp [hp])]
      simp only [loadFiles, hp, ih]

theorem loadDir_prune (parse : String → Option EmbeddingData)
    (files : List (String × String)) :
    loadDir parse
        (files.filter fun f => !(jsEndsWith f.1 ".embedding" && (parse f.2).isNone)) =
      ((loadDir parse files).1, 0) := by
  unfold loadDir
  rw [List.filter_filter]
  have hcongr :
      files.filter
          (fun f => jsEndsWith f.1 ".embedding" &&
            !(jsEndsWith f.1 ".embedding" && (parse f.2).isNone)) =
        files.filter (fun f => (parse f.2).isSome && jsEndsWith f.1 ".embedding") := by
    apply List.filter_congr
    intro f _
    cases h1 : jsEndsWith f.1 ".embedding" <;>
      cases h2 : parse f.2 <;> simp [h1, h2]
  rw [hcongr, ← List.filter_filter]
  exact loadFiles_prune parse _

theorem load_prune (parse : String → Option EmbeddingData) :
    ∀ tree, loadEmbeddingsFromPath parse (pruneCorrupt parse tree) =
      ((loadEmbeddingsFromPath parse tree).1, 0) := by
  intro tree
  induction tree with
  | nil => rfl
  | cons n rest ih =>
    cases n with
    | file a b =>
      have hstep : pruneCorrupt parse (FsNode.file a b :: rest) =
          FsNode.file a b :: pruneCorrupt parse rest := rfl
      rw [hstep]
      simpa only [loadEmbeddingsFromPath] using ih
    | dir day files =>
      have hstep : pruneCorrupt parse (FsNode.dir day files :: rest) =
          FsNode.dir day
              (files.filter fun f =>
                !(jsEndsWith f.1 ".embedding" && (parse f.2).isNone)) ::
            pruneCorrupt parse rest := rfl
      rw [hstep]
      by_cases hd : matchDay day
      · simp only [loadEmbeddingsFromPath, hd, if_true, loadDir_prune, ih]
      · simp only [loadEmbeddingsFromPath, hd, if_false, ih, Bool.false_eq_true]

/-- **C7.**  A corrupt (unparseable) vector record never aborts a retrieval
scan: the loader's failure count is exactly the number of unparseable
`.embedding` files; `search` and `listRecent` return exactly what they return
on the tree with the corrupt files removed; and their non-fatal warning is
attached precisely when at least one record failed to load. -/
theorem retrieval_skips_corrupt (eng : SearchEngine)
    (parse : String → Option EmbeddingData) (tree : EntriesTree)
    (query : String) (opts : SearchOptions) :
    (loadEmbeddingsFromPath parse tree).2 = corruptCount parse tree ∧
      (search eng parse tree query opts).results =
        (search eng parse (pruneCorrupt parse tree) query opts).results ∧
      ((search eng parse tree query opts).warning = none ↔
        corruptCount parse tree = 0) ∧
      (listRecent eng parse tree opts).results =
        (listRecent eng parse (pruneCorrupt parse tree) opts).results ∧
      ((listRecent eng parse tree opts).warning = none ↔
        corruptCount parse tree = 0) := by
  have h1 : (loadEmbeddingsFromPath parse (pruneCorrupt parse tree)).1 =
      (loadEmbeddingsFromPath parse tree).1 := by
    rw [load_prune]
  have esearch : ∀ t : EntriesTree, (search eng parse t query opts).results =
      (sortDesc (fun r : SearchResult => r.score)
          (((((loadEmbeddingsFromPath parse t).1.filter
              (passesFilters opts)).map
            (mkResult eng (eng.genEmbedding query) query)).filter
            fun r => decide (opts.minScore.getD (1 / 10) ≤ r.score)))).take
        (opts.limit.getD 10) := fun _ => rfl
  have erecent : ∀ t : EntriesTree, (listRecent eng parse t opts).results =
      ((sortDesc (fun e : EmbeddingData => e.timestamp)
          ((loadEmbeddingsFromPath parse t).1.filter
            (passesRecentFilters opts))).take (opts.limit.getD 10)).map
        recentResult := fun _ => rfl
  have hwarns : (search eng parse tree query opts).warning =
      if 0 < (loadEmbeddingsFromPath parse tree).2 then
        some (searchWarnMsg (loadEmbeddingsFromPath parse tree).2) else none := rfl
  have hwarnr : (listRecent eng parse tree opts).warning =
      if 0 < (loadEmbeddingsFromPath parse tree).2 then
        some (recentWarnMsg (loadEmbeddingsFromPath parse tree).2) else none := rfl
  refine ⟨load_snd parse tree, ?_, ?_, ?_, ?_⟩
  · rw [esearch, esearch, h1]
  · rw [hwarns, load_snd]
    by_cases hc : corruptCount parse tree = 0
    · simp [hc]
    · simp [hc, Nat.pos_of_ne_zero hc]
  · rw [erecent, erecent, h1]
  · rw [hwarnr, load_snd]
    by_cases hc : corruptCount parse tree = 0
    · simp [hc]
    · simp [hc, Nat.pos_of_ne_zero hc]

/-! ### Excerpt generation -/

/-- **C8, counterexample.**  With the duplicated-word query `"foo foo bar
baz"` on a 220-character text, the source scores window 0 (containing only
`foo`) as 2 and window 20 (containing `bar` and `baz`) as 2, keeping window 0;
by *distinct*-word count window 0 scores 1 and window 20 scores 2, so the
returned window is not a highest-scoring window in the claim's sense. -/
theorem generateExcerpt_counts_duplicates :
    generateExcerpt c8Text c8Query = c8Window0 ++ "..." ∧
      specDistinctWindowScore c8Text c8Query 0 200 <
        specDistinctWindowScore c8Text c8Query 20 200 := by
  constructor
  · decide
  · decide

theorem bestStep_zero (score : ℕ → ℕ) :
    bestStep score (0, 0) 0 = (0, score 0) := by
  unfold bestStep
  by_cases h : (0 : ℕ) < score 0
  · rw [if_pos h]
  · rw [if_neg h]
    have : score 0 = 0 := Nat.eq_zero_of_not_pos h
    rw [this]

theorem bestFold_spec (score : ℕ → ℕ) :
    ∀ (l : List ℕ) (b : ℕ × ℕ), b.2 = score b.1 →
      ((l.foldl (bestStep score) b).2 = score (l.foldl (bestStep score) b).1) ∧
        ((l.foldl (bestStep score) b).1 = b.1 ∨
          (l.foldl (bestStep score) b).1 ∈ l) ∧
        b.2 ≤ (l.foldl (bestStep score) b).2 ∧
        ∀ q ∈ l, score q ≤ (l.foldl (bestStep score) b).2 := by
  intro l
  induction l with
  | nil =>
    intro b hb
    exact ⟨hb, Or.inl rfl, le_refl _, by simp⟩
  | cons i is ih =>
    intro b hb
    rw [List.foldl_cons]
    by_cases h : b.2 < score i
    · have hstep : bestStep score b i = (i, score i) := by
        unfold bestStep; rw [if_pos h]
      obtain ⟨g1, g2, g3, g4⟩ := ih (bestStep score b i) (by rw [hstep])
      refine ⟨g1, ?_, ?_, ?_⟩
      · rcases g2 with g | g
        · refine Or.inr ?_
          rw [hstep] at g
          rw [hstep, g]
          exact List.mem_cons_self i is
        · exact Or.inr (List.mem_cons_of_mem _ g)
      · calc b.2 ≤ score i := le_of_lt h
          _ = (bestStep score b i).2 := by rw [hstep]
          _ ≤ _ := g3
      · intro q hq
        rcases List.mem_cons.1 hq with hq | hq
        · subst hq
          calc score q = (bestStep score b q).2 := by rw [hstep]
            _ ≤ _ := g3
        · exact g4 q hq
    · have hstep : bestStep score b i = b := by
        unfold bestStep; rw [if_neg h]
      rw [hstep]
      obtain ⟨g1, g2, g3, g4⟩ := ih b hb
      refine ⟨g1, ?_, g3, ?_⟩
      · rcases g2 with g | g
        · exact Or.inl g
        · exact Or.inr (List.mem_cons_of_mem _ g)
      · intro q hq
        rcases List.mem_cons.1 hq with hq | hq
        · subst hq
          exact le_trans (le_of_not_lt h) g3
        · exact g4 q hq

theorem generateExcerptL_long (text query : List Char)
    (h1 : jsTrimL query ≠ []) (h2 : 200 ≤ text.length) :
    ∃ p ∈ excerptPositions text.length 200,
      generateExcerptL text query 200 =
          (if 0 < p then ellipsis else []) ++ (text.drop p).take 200 ++
            (if p + 200 < text.length then ellipsis else []) ∧
        ∀ q ∈ excerptPositions text.length 200,
          tokenScoreL text query q 200 ≤ tokenScoreL text query p 200 := by
  obtain ⟨rest, hpos⟩ : ∃ rest, excerptPositions text.length 200 = 0 :: rest := by
    refine ⟨((List.range ((text.length - 200) / 20)).map Nat.succ).map (· * 20), ?_⟩
    rw [excerptPositions, if_pos h2, List.range_succ_eq_map]
    simp
  have hfold := bestFold_spec (fun i => tokenScoreL text query i 200) rest
    (0, tokenScoreL text query 0 200) rfl
  refine ⟨(rest.foldl (bestStep fun i => tokenScoreL text query i 200)
      (0, tokenScoreL text query 0 200)).1, ?_, ?_, ?_⟩
  · rw [hpos]
    rcases hfold.2.1 with g | g
    · rw [g]
      exact List.mem_cons_self _ _
    · exact List.mem_cons_of_mem _ g
  · simp only [generateExcerptL]
    rw [if_neg h1, hpos, List.foldl_cons, bestStep_zero]
    rfl
  · intro q hq
    rw [hpos] at hq
    have hfold1 : (rest.foldl (bestStep fun i => tokenScoreL text query i 200)
        (0, tokenScoreL text query 0 200)).2 =
        tokenScoreL text query
          (rest.foldl (bestStep fun i => tokenScoreL text query i 200)
            (0, tokenScoreL text query 0 200)).1 200 := hfold.1
    rcases List.mem_cons.1 hq with hq' | hq'
    · subst hq'
      exact hfold1 ▸ hfold.2.2.1
    · exact hfold1 ▸ hfold.2.2.2 q hq'

/-- **C8, amended.**  `generateExcerpt` slides a 200-character window in
20-character steps, scores each window by the number of query *tokens*
(whitespace-split, counted with multiplicity, matched case-insensitively as
substrings), returns the first window of maximal token score, prefixed with
an ellipsis exactly when it does not start at the beginning of the text and
suffixed with one exactly when it does not reach the end; an empty or
whitespace-only query yields the 200-character prefix instead (with a
trailing ellipsis when the text is longer), and a text shorter than the
window is returned whole. -/
theorem generateExcerpt_best_token_window (text query : String) :
    (jsTrimL query.data = [] →
      generateExcerpt text query =
        String.mk (text.data.take 200 ++
          if 200 < text.data.length then ellipsis else [])) ∧
      (jsTrimL query.data ≠ [] → text.data.length < 200 →
        generateExcerpt text query = text) ∧
      (jsTrimL query.data ≠ [] → 200 ≤ text.data.length →
        ∃ p ∈ excerptPositions text.data.length 200,
          generateExcerpt text query =
              String.mk ((if 0 < p then ellipsis else []) ++
                (text.data.drop p).take 200 ++
                (if p + 200 < text.data.length then ellipsis else [])) ∧
            ∀ q ∈ excerptPositions text.data.length 200,
              queryTokenScore text query q 200 ≤ queryTokenScore text query p 200) := by
  refine ⟨?_, ?_, ?_⟩
  · intro h
    rw [generateExcerpt, generateExcerptL, if_pos h]
  · intro h1 h2
    rw [generateExcerpt, generateExcerptL, if_neg h1]
    have hpos : excerptPositions text.data.length 200 = [] := by
      rw [excerptPositions, if_neg (by omega)]
    rw [hpos]
    simp only [List.foldl_nil]
    rw [if_neg (by omega : ¬ (0:ℕ) < 0),
      if_neg (by omega : ¬ 0 + 200 < text.data.length)]
    rw [List.drop_zero, List.take_of_length_le (by omega), List.append_nil,
      List.nil_append]
  · intro h1 h2
    obtain ⟨p, hp, hgen, hmax⟩ := generateExcerptL_long text.data query.data h1 h2
    refine ⟨p, hp, ?_, hmax⟩
    rw [generateExcerpt, hgen]

/-- **C8, witness** for the amended theorem: the empty-query prefix case, the
short-text case, and the maximal-window case at the counterexample text. -/
theorem generateExcerpt_best_token_window_witness :
    (generateExcerpt "hello world" "" =
        String.mk ("hello world".data.take 200 ++
          if 200 < "hello world".data.length then ellipsis else [])) ∧
      (generateExcerpt "hello world" "hello" = "hello world") ∧
      (∃ p ∈ excerptPositions c8Text.data.length 200,
        generateExcerpt c8Text c8Query =
            String.mk ((if 0 < p then ellipsis else []) ++
              (c8Text.data.drop p).take 200 ++
              (if p + 200 < c8Text.data.length then ellipsis else [])) ∧
          ∀ q ∈ excerptPositions c8Text.data.length 200,
            queryTokenScore c8Text c8Query q 200 ≤
              queryTokenScore c8Text c8Query p 200) :=
  ⟨(generateExcerpt_best_token_window "hello world" "").1 (by decide),
   (generateExcerpt_best_token_window "hello world" "hello").2.1 (by decide)
     (by decide),
   (generateExcerpt_best_token_window c8Text c8Query).2.2 (by decide) (by decide)⟩

/-! ### Filesystem model lemmas -/

theorem dirFiles_cons_hit (d' fs) (t : EntriesTree) (d : String)
    (h : (d' == d) = true) : dirFiles (FsNode.dir d' fs :: t) d = fs := by
  rw [dirFiles, List.find?_cons_of_pos _ (by simpa [isDirNamed] using h)]

theorem dirFiles_cons_miss (n : FsNode) (t : EntriesTree) (d : String)
    (h : isDirNamed d n = false) : dirFiles (n :: t) d = dirFiles t d := by
  rw [dirFiles, List.find?_cons_of_neg _ (by simp [h]), dirFiles]

theorem dirFiles_of_not_dirHas (t : EntriesTree) (d : String)
    (h : dirHas t d = false) : dirFiles t d = [] := by
  rw [dirFiles]
  have hnone : t.find? (isDirNamed d) = none := by
    rw [List.find?_eq_none]
    intro x hx hpx
    rw [dirHas] at h
    rw [List.any_eq_true.2 ⟨x, hx, hpx⟩] at h
    cases h
  rw [hnone]

theorem isDirNamed_writeNode (x day nm c : String) (n : FsNode) :
    isDirNamed x (writeNode day nm c n) = isDirNamed x n := by
  cases n with
  | file a b => rfl
  | dir d fs =>
    rw [writeNode]
    by_cases h : (d == day) = true
    · rw [if_pos h]
      rfl
    · rw [if_neg h]

theorem dirFiles_map_writeNode_same (d nm c : String) :
    ∀ t : EntriesTree, dirHas t d = true →
      dirFiles (t.map (writeNode d nm c)) d = dirWrite (dirFiles t d) nm c := by
  intro t
  induction t with
  | nil => intro h; cases h
  | cons n rest ih =>
    intro h
    cases hn : isDirNamed d n with
    | true =>
      cases n with
      | file a b => simp [isDirNamed] at hn
      | dir d' fs =>
        have hd : (d' == d) = true := by simpa [isDirNamed] using hn
        rw [List.map_cons, writeNode, if_pos hd]
        rw [dirFiles_cons_hit _ _ _ _ hd, dirFiles_cons_hit _ _ _ _ hd]
    | false =>
      rw [dirHas, List.any_cons, hn, Bool.false_or] at h
      rw [List.map_cons]
      rw [dirFiles_cons_miss _ _ _ (by rw [isDirNamed_writeNode]; exact hn)]
      rw [dirFiles_cons_miss _ _ _ hn]
      exact ih h

theorem dirFiles_map_writeNode_other (d d' nm c : String) (hne : d' ≠ d) :
    ∀ t : EntriesTree,
      dirFiles (t.map (writeNode d nm c)) d' = dirFiles t d' := by
  intro t
  induction t with
  | nil => rfl
  | cons n rest ih =>
    cases hn : isDirNamed d' n with
    | true =>
      cases n with
      | file a b => simp [isDirNamed] at hn
      | dir d'' fs =>
        have hd : (d'' == d') = true := by simpa [isDirNamed] using hn
        have hd2 : (d'' == d) = false := by
          have h1 : d'' = d' := by simpa using hd
          subst h1
          simpa using fun hh => hne hh
        rw [List.map_cons, writeNode, if_neg (by simp [hd2])]
        rw [dirFiles_cons_hit _ _ _ _ hd, dirFiles_cons_hit _ _ _ _ hd]
    | false =>
      rw [List.map_cons]
      rw [dirFiles_cons_miss _ _ _ (by rw [isDirNamed_writeNode]; exact hn)]
      rw [dirFiles_cons_miss _ _ _ hn]
      exact ih

theorem dirFiles_treeWrite_same (t : EntriesTree) (d nm c : String) :
    dirFiles (treeWrite t d nm c) d = dirWrite (dirFiles t d) nm c := by
  by_cases h : dirHas t d
  · rw [treeWrite, if_pos h]
    exact dirFiles_map_writeNode_same d nm c t h
  · rw [treeWrite, if_neg h]
    have hb : dirHas t d = false := by simpa using h
    rw [dirFiles, List.find?_append]
    have hnone : t.find? (isDirNamed d) = none := by
      rw [List.find?_eq_none]
      intro x hx hpx
      rw [dirHas] at hb
      rw [List.any_eq_true.2 ⟨x, hx, hpx⟩] at hb
      cases hb
    rw [hnone, dirFiles_of_not_dirHas t d hb]
    rw [Option.none_or]
    rw [List.find?_cons_of_pos _ (by simp [isDirNamed])]
    rfl

theorem dirFiles_treeWrite_other (t : EntriesTree) (d d' nm c : String)
    (hne : d' ≠ d) : dirFiles (treeWrite t d nm c) d' = dirFiles t d' := by
  by_cases h : dirHas t d
  · rw [treeWrite, if_pos h]
    exact dirFiles_map_writeNode_other d d' nm c hne t
  · rw [treeWrite, if_neg h]
    rw [dirFiles, List.find?_append]
    have hlast : List.find? (isDirNamed d') [FsNode.dir d [(nm, c)]] = none := by
      rw [List.find?_eq_none]
      intro x hx hpx
      rw [List.mem_singleton] at hx
      subst hx
      rw [isDirNamed] at hpx
      have hx2 : d = d' := by simpa using hpx
      exact hne hx2.symm
    rw [hlast, dirFiles]
    cases t.find? (isDirNamed d') <;> rfl

theorem find?_pair_cons_hit (f : String × String) (l : List (String × String))
    (nm : String) (h : (f.1 == nm) = true) :
    List.find? (fun x => x.1 == nm) (f :: l) = some f :=
  @List.find?_cons_of_pos _ (fun x => x.1 == nm) f l h

theorem find?_pair_cons_miss (f : String × String) (l : List (String × String))
    (nm : String) (h : (f.1 == nm) = false) :
    List.find? (fun x => x.1 == nm) (f :: l) = List.find? (fun x => x.1 == nm) l :=
  @List.find?_cons_of_neg _ (fun x => x.1 == nm) f l (by simp [h])

theorem dirWrite_find_same (fs : List (String × String)) (nm c : String) :
    (dirWrite fs nm c).find? (·.1 == nm) = some (nm, c) := by
  rw [dirWrite]
  by_cases h : fs.any (·.1 == nm)
  · rw [if_pos h]
    induction fs with
    | nil => cases h
    | cons f rest ih =>
      rw [List.map_cons]
      by_cases hf : (f.1 == nm) = true
      · rw [if_pos hf]
        rw [List.find?_cons_of_pos _ (by simp)]
      · rw [if_neg hf]
        rw [List.any_cons] at h
        have hrest : rest.any (·.1 == nm) = true := by
          rcases Bool.or_eq_true_iff.1 h with h' | h'
          · exact absurd h' hf
          · exact h'
        rw [List.find?_cons_of_neg _ (by simpa using hf)]
        exact ih hrest
  · rw [if_neg h, List.find?_append]
    have hnone : fs.find? (·.1 == nm) = none := by
      rw [List.find?_eq_none]
      intro x hx hpx
      exact h (List.any_eq_true.2 ⟨x, hx, hpx⟩)
    rw [hnone, Option.none_or]
    rw [List.find?_cons_of_pos _ (by simp)]

theorem dirWrite_find_other (fs : List (String × String)) (nm nm' c : String)
    (hne : nm' ≠ nm) :
    (dirWrite fs nm c).find? (·.1 == nm') = fs.find? (·.1 == nm') := by
  rw [dirWrite]
  by_cases h : fs.any (·.1 == nm)
  · rw [if_pos h]
    induction fs with
    | nil => rfl
    | cons f rest ih =>
      rw [List.map_cons]
      by_cases hf : (f.1 == nm) = true
      · rw [if_pos hf]
        have h1 : (f.1 == nm') = false := by
          have hfe : f.1 = nm := by simpa using hf
          rw [hfe]
          simpa using fun hh => hne hh.symm
        have h2 : ((nm, c).1 == nm') = false := by
          simpa using fun hh => hne hh.symm
        rw [List.find?_cons_of_neg _ (by simp [h2]),
          List.find?_cons_of_neg _ (by simp [h1])]
        by_cases hrest : rest.any (·.1 == nm) = true
        · exact ih hrest
        · have hmapid : rest.map (fun f => if f.1 == nm then (nm, c) else f) = rest := by
            conv_rhs => rw [← List.map_id rest]
            apply List.map_congr_left
            intro x hx
            have hxn : (x.1 == nm) = false := by
              cases hxx : (x.1 == nm) with
              | true => exact absurd (List.any_eq_true.2 ⟨x, hx, hxx⟩) hrest
              | false => rfl
            rw [if_neg (by simp [hxn])]
            rfl
          rw [hmapid]
      · rw [if_neg hf]
        rw [List.any_cons] at h
        have hrest : rest.any (·.1 == nm) = true := by
          rcases Bool.or_eq_true_iff.1 h with h' | h'
          · exact absurd h' hf
          · exact h'
        cases hx : (f.1 == nm') with
        | true =>
          rw [find?_pair_cons_hit _ _ _ hx, find?_pair_cons_hit _ _ _ hx]
        | false =>
          rw [find?_pair_cons_miss _ _ _ hx, find?_pair_cons_miss _ _ _ hx]
          exact ih hrest
  · rw [if_neg h, List.find?_append]
    have hlast : List.find? (·.1 == nm') [(nm, c)] = none := by
      rw [List.find?_eq_none]
      intro x hx hpx
      rw [List.mem_singleton] at hx
      subst hx
      have hx2 : nm = nm' := by simpa using hpx
      exact hne hx2.symm
    rw [hlast]
    cases fs.find? (·.1 == nm') <;> rfl

theorem dirWrite_any (fs : List (String × String)) (nm c n : String) :
    (dirWrite fs nm c).any (·.1 == n) = (fs.any (·.1 == n) || n == nm) := by
  rw [dirWrite]
  by_cases h : fs.any (·.1 == nm)
  · rw [if_pos h]
    by_cases hn : n = nm
    · subst hn
      have hr : (n == n) = true := by simp
      rw [hr, Bool.or_true, List.any_eq_true]
      obtain ⟨f, hf, hpf⟩ := List.any_eq_true.1 h
      refine ⟨(n, c), ?_, by simp⟩
      rw [List.mem_map]
      exact ⟨f, hf, by rw [if_pos hpf]⟩
    · have hn' : (n == nm) = false := by simpa using hn
      rw [hn', Bool.or_false]
      induction fs with
      | nil => rfl
      | cons f rest ih =>
        rw [List.map_cons, List.any_cons, List.any_cons]
        by_cases hf : (f.1 == nm) = true
        · rw [if_pos hf]
          have h1 : (f.1 == n) = false := by
            have hfe : f.1 = nm := by simpa using hf
            rw [hfe]
            simpa using fun hh => hn hh.symm
          have h2 : ((nm, c).1 == n) = false := by
            simpa using fun hh => hn hh.symm
          rw [h1, h2, Bool.false_or, Bool.false_or]
          by_cases hrest : rest.any (·.1 == nm) = true
          · exact ih hrest
          · have hmapid : rest.map (fun f => if f.1 == nm then (nm, c) else f) = rest := by
              conv_rhs => rw [← List.map_id rest]
              apply List.map_congr_left
              intro x hx
              have hxn : (x.1 == nm) = false := by
                cases hxx : (x.1 == nm) with
                | true => exact absurd (List.any_eq_true.2 ⟨x, hx, hxx⟩) hrest
                | false => rfl
              rw [if_neg (by simp [hxn])]
              rfl
            rw [hmapid]
        · rw [if_neg hf]
          rw [List.any_cons] at h
          have hrest : rest.any (·.1 == nm) = true := by
            rcases Bool.or_eq_true_iff.1 h with h' | h'
            · exact absurd h' hf
            · exact h'
          cases hx : (f.1 == n) with
          | true => rw [Bool.true_or, Bool.true_or]
          | false =>
            rw [Bool.false_or, Bool.false_or]
            exact ih hrest
  · rw [if_neg h, List.any_append, List.any_cons, List.any_nil, Bool.or_false]
    have hswap : ((nm, c).1 == n) = (n == nm) := by
      show (nm == n) = (n == nm)
      cases hx : (nm == n) with
      | true =>
        have he : nm = n := by simpa using hx
        subst he
        simp
      | false =>
        have hd : nm ≠ n := by simpa using hx
        have h1 : (n == nm) = false := by
          simpa using fun hh => hd hh.symm
        rw [h1]
    rw [hswap]

/-! ### Entry / record file-name lemmas -/

theorem jsEndsWith_append (s suf : String) : jsEndsWith (s ++ suf) suf = true := by
  rw [jsEndsWith, String.data_append, List.reverse_append]
  exact List.isPrefixOf_iff_prefix.2 (List.prefix_append _ _)

theorem exists_pre_of_jsEndsWith_md (name : String)
    (h : jsEndsWith name ".md" = true) :
    ∃ pre, name.data = pre ++ ['.', 'm', 'd'] := by
  rw [jsEndsWith, List.isPrefixOf_iff_prefix] at h
  obtain ⟨t, ht⟩ := h
  refine ⟨t.reverse, ?_⟩
  have h2 := congrArg List.reverse ht
  rw [List.reverse_reverse, List.reverse_append, List.reverse_reverse] at h2
  exact h2.symm

theorem embeddingPathOf_data (name : String) (pre : List Char)
    (h : name.data = pre ++ ['.', 'm', 'd']) :
    (embeddingPathOf name).data = pre ++ ".embedding".data := by
  have hends : jsEndsWith name ".md" = true := by
    rw [jsEndsWith, List.isPrefixOf_iff_prefix, h, List.reverse_append]
    exact List.prefix_append _ _
  rw [embeddingPathOf, if_pos hends, String.data_append]
  have hlen : name.data.length = pre.length + 3 := by
    rw [h, List.length_append]
    rfl
  have htake : name.data.take (name.data.length - 3) = pre := by
    rw [hlen, h]
    simpa using List.take_left pre ['.', 'm', 'd']
  rw [htake]

theorem embeddingPathOf_ne (name : String) (h : jsEndsWith name ".md" = true) :
    embeddingPathOf name ≠ name := by
  obtain ⟨pre, hpre⟩ := exists_pre_of_jsEndsWith_md name h
  intro heq
  have hd := congrArg String.data heq
  rw [embeddingPathOf_data name pre hpre, hpre] at hd
  have := List.append_cancel_left hd
  cases this

theorem embeddingPathOf_inj (a b : String) (ha : jsEndsWith a ".md" = true)
    (hb : jsEndsWith b ".md" = true)
    (h : embeddingPathOf a = embeddingPathOf b) : a = b := by
  obtain ⟨pa, hpa⟩ := exists_pre_of_jsEndsWith_md a ha
  obtain ⟨pb, hpb⟩ := exists_pre_of_jsEndsWith_md b hb
  have hd := congrArg String.data h
  rw [embeddingPathOf_data a pa hpa, embeddingPathOf_data b pb hpb] at hd
  have hpre := List.append_cancel_right hd
  apply String.ext
  rw [hpa, hpb, hpre]

theorem embeddingPathOf_not_md (name : String)
    (h : jsEndsWith name ".md" = true) :
    jsEndsWith (embeddingPathOf name) ".md" = false := by
  obtain ⟨pre, hpre⟩ := exists_pre_of_jsEndsWith_md name h
  cases hx : jsEndsWith (embeddingPathOf name) ".md" with
  | false => rfl
  | true =>
    rw [jsEndsWith, List.isPrefixOf_iff_prefix] at hx
    rw [embeddingPathOf_data name pre hpre, List.reverse_append] at hx
    obtain ⟨t, ht⟩ := hx
    have hh := congrArg List.head? ht
    have hdg : some 'd' = some 'g' := hh
    exact absurd (Option.some.inj hdg) (by decide)

/-! ### Record generation for one entry -/

theorem dirRead_treeWrite_same (t : EntriesTree) (d nm c : String) :
    dirRead (treeWrite t d nm c) d nm = some c := by
  rw [dirRead, dirFiles_treeWrite_same, dirWrite_find_same]
  rfl

theorem dirRead_treeWrite_other_name (t : EntriesTree) (d nm nm' c : String)
    (h : nm' ≠ nm) :
    dirRead (treeWrite t d nm c) d nm' = dirRead t d nm' := by
  rw [dirRead, dirFiles_treeWrite_same, dirWrite_find_other _ _ _ _ h, dirRead]

theorem dirRead_treeWrite_other_day (t : EntriesTree) (d d' nm nm' c : String)
    (h : d' ≠ d) :
    dirRead (treeWrite t d nm c) d' nm' = dirRead t d' nm' := by
  rw [dirRead, dirFiles_treeWrite_other _ _ _ _ _ h, dirRead]

theorem genEmb_empty (eng : WriteEngine) (tree : EntriesTree)
    (day fn content : String) (ts : ℤ) (proj : String)
    (h : (jsTrimL (extractSearchableText content).1.data).isEmpty = true) :
    generateEmbeddingForEntry eng tree day fn content ts proj = (true, tree) := by
  rw [generateEmbeddingForEntry, if_pos h]

theorem genEmb_flag_iff (eng : WriteEngine) (tree : EntriesTree)
    (day fn content : String) (ts : ℤ) (proj : String) :
    (generateEmbeddingForEntry eng tree day fn content ts proj).1 = false ↔
      ((jsTrimL (extractSearchableText content).1.data).isEmpty = false ∧
        ((∃ msg, eng.embed (extractSearchableText content).1 = Except.error msg) ∨
          eng.saveOk (day ++ "/" ++ fn) = false)) := by
  rw [generateEmbeddingForEntry]
  by_cases he : (jsTrimL (extractSearchableText content).1.data).isEmpty = true
  · rw [if_pos he]
    simp [he]
  · rw [if_neg he]
    simp only [Bool.not_eq_true] at he
    cases hm : eng.embed (extractSearchableText content).1 with
    | error msg => simp [he]
    | ok v =>
      cases hs : eng.saveOk (day ++ "/" ++ fn) with
      | true => simp [he, hs]
      | false => simp [he, hs]

theorem genEmb_tree_cases (eng : WriteEngine) (tree : EntriesTree)
    (day fn content : String) (ts : ℤ) (proj : String) :
    (generateEmbeddingForEntry eng tree day fn content ts proj).2 = tree ∨
      ∃ enc, (generateEmbeddingForEntry eng tree day fn content ts proj).2 =
        treeWrite tree day (embeddingPathOf fn) enc := by
  rw [generateEmbeddingForEntry]
  by_cases he : (jsTrimL (extractSearchableText content).1.data).isEmpty = true
  · rw [if_pos he]
    exact Or.inl rfl
  · rw [if_neg he]
    cases hm : eng.embed (extractSearchableText content).1 with
    | error msg => exact Or.inl rfl
    | ok v =>
      cases hs : eng.saveOk (day ++ "/" ++ fn) with
      | true =>
        refine Or.inr ⟨eng.encode ⟨v, (extractSearchableText content).1,
          (extractSearchableText content).2, ts, day ++ "/" ++ fn, some proj⟩, ?_⟩
        simp [hs, hm]
      | false =>
        refine Or.inl ?_
        simp [hs]

theorem genEmb_read_preserved (eng : WriteEngine) (tree : EntriesTree)
    (day fn content : String) (ts : ℤ) (proj : String) (d' nm : String)
    (hne : nm ≠ embeddingPathOf fn) :
    dirRead (generateEmbeddingForEntry eng tree day fn content ts proj).2 d' nm =
      dirRead tree d' nm := by
  rcases genEmb_tree_cases eng tree day fn content ts proj with h | ⟨enc, h⟩
  · rw [h]
  · rw [h]
    by_cases hd : d' = day
    · subst hd
      exact dirRead_treeWrite_other_name tree d' _ nm enc hne
    · exact dirRead_treeWrite_other_day tree day d' _ nm enc hd

/-! ### C3 and C10: the write path never escalates embedding failures -/

theorem ends_md_embedding_absurd (nm : String)
    (h1 : jsEndsWith nm ".md" = true)
    (h2 : jsEndsWith nm ".embedding" = true) : False := by
  rw [jsEndsWith, List.isPrefixOf_iff_prefix] at h1 h2
  obtain ⟨t1, ht1⟩ := h1
  obtain ⟨t2, ht2⟩ := h2
  have hh := congrArg List.head? (ht1.trans ht2.symm)
  have hdg : some 'd' = some 'g' := hh
  exact absurd (Option.some.inj hdg) (by decide)

theorem dirHasFile_treeWrite (t : EntriesTree) (d nm c n : String) :
    dirHasFile (treeWrite t d nm c) d n = (dirHasFile t d n || n == nm) := by
  rw [dirHasFile, dirFiles_treeWrite_same, dirWrite_any, dirHasFile]

/-- **C3.**  Whenever the day directory can be used (it exists or can be
created), `writeEntry` and `writeThoughts` return success (`Except.ok`)
carrying a boolean embedding flag, the entry file itself is durably present
with its formatted content, and the flag is `false` exactly when the
(non-empty) extracted text hit an embedding-generation failure or a
vector-record persistence failure - such a failure is never escalated into a
failure of the write itself. -/
theorem write_embedding_failure_not_escalated (eng : WriteEngine)
    (mkdirOk : Bool) (tree : EntriesTree) (stamp : Stamp)
    (ds fb proj content : String) (t : Thoughts)
    (hdir : dirHas tree ds = true ∨ mkdirOk = true) :
    (∃ flag tree2,
      writeEntry eng mkdirOk tree stamp ds fb proj content =
          Except.ok (flag, tree2) ∧
        dirRead tree2 ds (fb ++ ".md") = some (formatEntry content stamp proj) ∧
        (flag = false ↔
          ((jsTrimL (extractSearchableText
              (formatEntry content stamp proj)).1.data).isEmpty = false ∧
            ((∃ msg, eng.embed (extractSearchableText
                (formatEntry content stamp proj)).1 = Except.error msg) ∨
              eng.saveOk (ds ++ "/" ++ (fb ++ ".md")) = false)))) ∧
      (∃ flag tree2,
        writeThoughts eng mkdirOk tree stamp ds fb proj t =
            Except.ok (flag, tree2) ∧
          dirRead tree2 ds (fb ++ ".md") = some (formatThoughts t stamp proj) ∧
          (flag = false ↔
            ((jsTrimL (extractSearchableText
                (formatThoughts t stamp proj)).1.data).isEmpty = false ∧
              ((∃ msg, eng.embed (extractSearchableText
                  (formatThoughts t stamp proj)).1 = Except.error msg) ∨
                eng.saveOk (ds ++ "/" ++ (fb ++ ".md")) = false)))) := by
  have hcond : (!dirHas tree ds && !mkdirOk) = false := by
    rcases hdir with h | h <;> simp [h]
  have hmdne : fb ++ ".md" ≠ embeddingPathOf (fb ++ ".md") :=
    (embeddingPathOf_ne _ (jsEndsWith_append fb ".md")).symm
  constructor
  · refine ⟨(generateEmbeddingForEntry eng
        (treeWrite tree ds (fb ++ ".md") (formatEntry content stamp proj)) ds
        (fb ++ ".md") (formatEntry content stamp proj) stamp.epochMs proj).1,
      (generateEmbeddingForEntry eng
        (treeWrite tree ds (fb ++ ".md") (formatEntry content stamp proj)) ds
        (fb ++ ".md") (formatEntry content stamp proj) stamp.epochMs proj).2,
      ?_, ?_, ?_⟩
    · rw [writeEntry, if_neg (by simp [hcond])]
    · rw [genEmb_read_preserved _ _ _ _ _ _ _ _ _ hmdne]
      exact dirRead_treeWrite_same tree ds (fb ++ ".md")
        (formatEntry content stamp proj)
    · exact genEmb_flag_iff eng _ ds (fb ++ ".md")
        (formatEntry content stamp proj) stamp.epochMs proj
  · refine ⟨(generateEmbeddingForEntry eng
        (treeWrite tree ds (fb ++ ".md") (formatThoughts t stamp proj)) ds
        (fb ++ ".md") (formatThoughts t stamp proj) stamp.epochMs proj).1,
      (generateEmbeddingForEntry eng
        (treeWrite tree ds (fb ++ ".md") (formatThoughts t stamp proj)) ds
        (fb ++ ".md") (formatThoughts t stamp proj) stamp.epochMs proj).2,
      ?_, ?_, ?_⟩
    · rw [writeThoughts, if_neg (by simp [hcond])]
    · rw [genEmb_read_preserved _ _ _ _ _ _ _ _ _ hmdne]
      exact dirRead_treeWrite_same tree ds (fb ++ ".md")
        (formatThoughts t stamp proj)
    · exact genEmb_flag_iff eng _ ds (fb ++ ".md")
        (formatThoughts t stamp proj) stamp.epochMs proj

/-- **C3, witness**: with a failing embedding backend the write still returns
`ok` with the flag `false` and the entry durably stored. -/
theorem write_embedding_failure_not_escalated_witness :
    (∃ flag tree2,
      writeEntry egFailEngine true [] egStamp "2025-05-31" "10-00-00-000000"
          "general" "hello" = Except.ok (flag, tree2) ∧
        dirRead tree2 "2025-05-31" ("10-00-00-000000" ++ ".md") =
          some (formatEntry "hello" egStamp "general") ∧
        (flag = false ↔
          ((jsTrimL (extractSearchableText
              (formatEntry "hello" egStamp "general")).1.data).isEmpty = false ∧
            ((∃ msg, egFailEngine.embed (extractSearchableText
                (formatEntry "hello" egStamp "general")).1 = Except.error msg) ∨
              egFailEngine.saveOk ("2025-05-31" ++ "/" ++
                ("10-00-00-000000" ++ ".md")) = false)))) ∧
      (∃ flag tree2,
        writeThoughts egFailEngine true [] egStamp "2025-05-31"
            "10-00-00-000000" "general" egThoughts = Except.ok (flag, tree2) ∧
          dirRead tree2 "2025-05-31" ("10-00-00-000000" ++ ".md") =
            some (formatThoughts egThoughts egStamp "general") ∧
          (flag = false ↔
            ((jsTrimL (extractSearchableText
                (formatThoughts egThoughts egStamp "general")).1.data).isEmpty = false ∧
              ((∃ msg, egFailEngine.embed (extractSearchableText
                  (formatThoughts egThoughts egStamp "general")).1 = Except.error msg) ∨
                egFailEngine.saveOk ("2025-05-31" ++ "/" ++
                  ("10-00-00-000000" ++ ".md")) = false)))) :=
  write_embedding_failure_not_escalated egFailEngine true [] egStamp
    "2025-05-31" "10-00-00-000000" "general" "hello" egThoughts (Or.inr rfl)

/-- **C10.**  When the extracted searchable text of the just-formatted entry
is empty after trimming, `writeEntry` and `writeThoughts` return the
embedding flag `true` even though no vector record is written: the resulting
tree is exactly the old tree plus the entry file, and its set of
`.embedding` files is unchanged - so a `true` flag does not imply that a
companion vector record exists. -/
theorem empty_text_reports_embedding_success (eng : WriteEngine)
    (mkdirOk : Bool) (tree : EntriesTree) (stamp : Stamp)
    (ds fb proj content : String) (t : Thoughts)
    (hdir : dirHas tree ds = true ∨ mkdirOk = true)
    (hE : (jsTrimL (extractSearchableText
      (formatEntry content stamp proj)).1.data).isEmpty = true)
    (hT : (jsTrimL (extractSearchableText
      (formatThoughts t stamp proj)).1.data).isEmpty = true) :
    writeEntry eng mkdirOk tree stamp ds fb proj content =
        Except.ok (true, treeWrite tree ds (fb ++ ".md")
          (formatEntry content stamp proj)) ∧
      writeThoughts eng mkdirOk tree stamp ds fb proj t =
        Except.ok (true, treeWrite tree ds (fb ++ ".md")
          (formatThoughts t stamp proj)) ∧
      ∀ nm, jsEndsWith nm ".embedding" = true →
        dirHasFile (treeWrite tree ds (fb ++ ".md")
            (formatEntry content stamp proj)) ds nm = dirHasFile tree ds nm ∧
          dirHasFile (treeWrite tree ds (fb ++ ".md")
            (formatThoughts t stamp proj)) ds nm = dirHasFile tree ds nm := by
  have hcond : (!dirHas tree ds && !mkdirOk) = false := by
    rcases hdir with h | h <;> simp [h]
  have hbeq : ∀ nm, jsEndsWith nm ".embedding" = true →
      (nm == fb ++ ".md") = false := by
    intro nm hemb
    cases hx : (nm == fb ++ ".md") with
    | false => rfl
    | true =>
      have he : nm = fb ++ ".md" := by simpa using hx
      rw [he] at hemb
      exact (ends_md_embedding_absurd (fb ++ ".md")
        (jsEndsWith_append fb ".md") hemb).elim
  refine ⟨?_, ?_, ?_⟩
  · rw [writeEntry, if_neg (by simp [hcond])]
    show Except.ok (generateEmbeddingForEntry eng
      (treeWrite tree ds (fb ++ ".md") (formatEntry content stamp proj)) ds
      (fb ++ ".md") (formatEntry content stamp proj) stamp.epochMs proj) = _
    rw [genEmb_empty _ _ _ _ _ _ _ hE]
  · rw [writeThoughts, if_neg (by simp [hcond])]
    show Except.ok (generateEmbeddingForEntry eng
      (treeWrite tree ds (fb ++ ".md") (formatThoughts t stamp proj)) ds
      (fb ++ ".md") (formatThoughts t stamp proj) stamp.epochMs proj) = _
    rw [genEmb_empty _ _ _ _ _ _ _ hT]
  · intro nm hemb
    constructor
    · rw [dirHasFile_treeWrite, hbeq nm hemb, Bool.or_false]
    · rw [dirHasFile_treeWrite, hbeq nm hemb, Bool.or_false]

/-- **C10, witness**: empty raw content and whitespace-only thought sections
produce `ok` with a `true` flag and no `.embedding` file. -/
theorem empty_text_reports_embedding_success_witness :
    writeEntry egOkEngine true [] egStamp "2025-05-31" "10-00-00-000000"
        "general" "" =
      Except.ok (true, treeWrite [] "2025-05-31" ("10-00-00-000000" ++ ".md")
        (formatEntry "" egStamp "general")) ∧
    writeThoughts egOkEngine true [] egStamp "2025-05-31" "10-00-00-000000"
        "general" egWsThoughts =
      Except.ok (true, treeWrite [] "2025-05-31" ("10-00-00-000000" ++ ".md")
        (formatThoughts egWsThoughts egStamp "general")) ∧
    ∀ nm, jsEndsWith nm ".embedding" = true →
      dirHasFile (treeWrite [] "2025-05-31" ("10-00-00-000000" ++ ".md")
          (formatEntry "" egStamp "general")) "2025-05-31" nm =
        dirHasFile [] "2025-05-31" nm ∧
      dirHasFile (treeWrite [] "2025-05-31" ("10-00-00-000000" ++ ".md")
          (formatThoughts egWsThoughts egStamp "general")) "2025-05-31" nm =
        dirHasFile [] "2025-05-31" nm :=
  empty_text_reports_embedding_success egOkEngine true [] egStamp "2025-05-31"
    "10-00-00-000000" "general" "" egWsThoughts (Or.inr rfl) (by decide)
    (by decide)

/-! ### Line-structure lemmas for the formatted entry -/

theorem splitLines_ne_nil : ∀ cs : List Char, splitLines cs ≠ [] := by
  intro cs
  cases cs with
  | nil => simp [splitLines]
  | cons c cs =>
    rw [splitLines]
    by_cases h : c = '\n'
    · simp [h]
    · simp [h]

theorem headI_cons_tail {α : Type} [Inhabited α] (l : List α) (h : l ≠ []) :
    l.headI :: l.tail = l := by
  cases l with
  | nil => exact absurd rfl h
  | cons a t => rfl

theorem headI_mem {α : Type} [Inhabited α] (l : List α) (h : l ≠ []) :
    l.headI ∈ l := by
  cases l with
  | nil => exact absurd rfl h
  | cons a t => exact List.mem_cons_self _ _

theorem headI_append {α : Type} [Inhabited α] (a b : List α) (h : a ≠ []) :
    (a ++ b).headI = a.headI := by
  cases a with
  | nil => exact absurd rfl h
  | cons x t => rfl

theorem tail_append {α : Type} (a b : List α) (h : a ≠ []) :
    (a ++ b).tail = a.tail ++ b := by
  cases a with
  | nil => exact absurd rfl h
  | cons x t => rfl

theorem splitLines_append_nl : ∀ xs ys : List Char,
    splitLines (xs ++ '\n' :: ys) = splitLines xs ++ splitLines ys := by
  intro xs
  induction xs with
  | nil =>
    intro ys
    rw [List.nil_append, splitLines]
    simp [splitLines]
  | cons c cs ih =>
    intro ys
    rw [List.cons_append, splitLines, splitLines]
    by_cases h : c = '\n'
    · simp only [h, if_pos rfl, ih]
      rfl
    · simp only [if_neg h, ih]
      rw [headI_append _ _ (splitLines_ne_nil cs),
        tail_append _ _ (splitLines_ne_nil cs)]
      rfl

theorem splitLines_cons_nl (z : List Char) :
    splitLines ('\n' :: z) = [] :: splitLines z := by
  rw [splitLines]
  simp

theorem splitLines_noNl : ∀ cs : List Char, (∀ c ∈ cs, c ≠ '\n') →
    splitLines cs = [cs] := by
  intro cs
  induction cs with
  | nil => intro _; rfl
  | cons c cs ih =>
    intro h
    rw [splitLines]
    have hc : ¬ c = '\n' := h c (List.mem_cons_self _ _)
    rw [if_neg hc, ih fun x hx => h x (List.mem_cons_of_mem _ hx)]
    rfl

theorem mem_splitLines_subset : ∀ cs : List Char, ∀ l ∈ splitLines cs,
    ∀ c ∈ l, c ∈ cs := by
  intro cs
  induction cs with
  | nil =>
    intro l hl c hc
    rw [splitLines, List.mem_singleton] at hl
    subst hl
    cases hc
  | cons b cs ih =>
    intro l hl c hc
    rw [splitLines] at hl
    by_cases hb : b = '\n'
    · rw [if_pos hb] at hl
      rcases List.mem_cons.1 hl with h | h
      · subst h
        cases hc
      · exact List.mem_cons_of_mem _ (ih l h c hc)
    · rw [if_neg hb] at hl
      rcases List.mem_cons.1 hl with h | h
      · subst h
        rcases List.mem_cons.1 hc with h' | h'
        · subst h'
          exact List.mem_cons_self _ _
        · refine List.mem_cons_of_mem _ ?_
          exact ih _ (headI_mem _ (splitLines_ne_nil cs)) c h'
      · refine List.mem_cons_of_mem _ ?_
        exact ih l (List.mem_of_mem_tail h) c hc

theorem jsTrimL_of_ws (cs : List Char) (h : ∀ c ∈ cs, c.isWhitespace = true) :
    jsTrimL cs = [] := by
  rw [jsTrimL]
  have h1 : cs.dropWhile Char.isWhitespace = [] :=
    List.dropWhile_eq_nil_iff.2 h
  rw [h1]
  rfl

theorem mem_joinSp : ∀ (L : List (List Char)) (c : Char), c ∈ joinSp L →
    c = ' ' ∨ ∃ l ∈ L, c ∈ l := by
  intro L
  induction L with
  | nil =>
    intro c hc
    cases hc
  | cons l ls ih =>
    intro c hc
    cases ls with
    | nil =>
      rw [joinSp] at hc
      exact Or.inr ⟨l, List.mem_singleton.2 rfl, hc⟩
    | cons l2 ls2 =>
      have hc' : c ∈ l ++ ' ' :: joinSp (l2 :: ls2) := hc
      rcases List.mem_append.1 hc' with h | h
      · exact Or.inr ⟨l, List.mem_cons_self _ _, h⟩
      · rcases List.mem_cons.1 h with h' | h'
        · exact Or.inl h'
        · rcases ih c h' with h'' | ⟨l', hl', hc'⟩
          · exact Or.inl h''
          · exact Or.inr ⟨l', List.mem_cons_of_mem _ hl', hc'⟩

theorem noNl_append {a b : List Char} (ha : ∀ c ∈ a, c ≠ '\n')
    (hb : ∀ c ∈ b, c ≠ '\n') : ∀ c ∈ a ++ b, c ≠ '\n' := by
  intro c hc
  rcases List.mem_append.1 hc with h | h
  · exact ha c h
  · exact hb c h

theorem ne_hyphens_of_head (c : Char) (hx : c ≠ '-') (l : List Char) :
    ((c :: l) != hyphens) = true := by
  rw [bne_iff_ne]
  intro h
  rw [hyphens] at h
  exact hx (List.head_eq_of_cons_eq h)

theorem formatThoughts_data (t : Thoughts) (stamp : Stamp) (proj : String) :
    (formatThoughts t stamp proj).data =
      "---".data ++ '\n' ::
        (("title: \"".data ++ stamp.timeDisplay.data ++ " - ".data ++
            stamp.dateDisplay.data ++ "\"".data) ++ '\n' ::
          (("date: ".data ++ stamp.iso.data) ++ '\n' ::
            (("timestamp: ".data ++ (toString stamp.epochMs).data) ++ '\n' ::
              (("project: ".data ++ proj.data) ++ '\n' ::
                ("---".data ++ '\n' :: ('\n' ::
                  ((strJoin "\n\n" (thoughtSections t)).data ++ ['\n']))))))) := by
  rw [formatThoughts, frontmatter]
  simp only [String.data_append]
  simp [List.append_assoc]

theorem formatThoughts_lines (t : Thoughts) (stamp : Stamp) (proj : String)
    (h1 : ∀ c ∈ stamp.timeDisplay.data, c ≠ '\n')
    (h2 : ∀ c ∈ stamp.dateDisplay.data, c ≠ '\n')
    (h3 : ∀ c ∈ stamp.iso.data, c ≠ '\n')
    (h4 : ∀ c ∈ (toString stamp.epochMs).data, c ≠ '\n')
    (h5 : ∀ c ∈ proj.data, c ≠ '\n') :
    splitLines (formatThoughts t stamp proj).data =
      "---".data ::
        ("title: \"".data ++ stamp.timeDisplay.data ++ " - ".data ++
          stamp.dateDisplay.data ++ "\"".data) ::
        ("date: ".data ++ stamp.iso.data) ::
        ("timestamp: ".data ++ (toString stamp.epochMs).data) ::
        ("project: ".data ++ proj.data) ::
        "---".data :: [] ::
        (splitLines (strJoin "\n\n" (thoughtSections t)).data ++ [[]]) := by
  have lit1 : ∀ c ∈ "---".data, c ≠ '\n' := by decide
  have lit2 : ∀ c ∈ "title: \"".data, c ≠ '\n' := by decide
  have lit3 : ∀ c ∈ " - ".data, c ≠ '\n' := by decide
  have lit4 : ∀ c ∈ "\"".data, c ≠ '\n' := by decide
  have lit5 : ∀ c ∈ "date: ".data, c ≠ '\n' := by decide
  have lit6 : ∀ c ∈ "timestamp: ".data, c ≠ '\n' := by decide
  have lit7 : ∀ c ∈ "project: ".data, c ≠ '\n' := by decide
  rw [formatThoughts_data]
  rw [splitLines_append_nl, splitLines_append_nl, splitLines_append_nl,
    splitLines_append_nl, splitLines_append_nl, splitLines_append_nl,
    splitLines_cons_nl, splitLines_append_nl]
  rw [splitLines_noNl _ lit1]
  rw [splitLines_noNl _
    (noNl_append (noNl_append (noNl_append (noNl_append lit2 h1) lit3) h2) lit4)]
  rw [splitLines_noNl _ (noNl_append lit5 h3)]
  rw [splitLines_noNl _ (noNl_append lit6 h4)]
  rw [splitLines_noNl _ (noNl_append lit7 h5)]
  simp [splitLines]

theorem dropWhile_ne_hyphens_cons_hit (a : List Char) (l : List (List Char))
    (h : (a != hyphens) = true) :
    List.dropWhile (fun x => x != hyphens) (a :: l) =
      List.dropWhile (fun x => x != hyphens) l :=
  @List.dropWhile_cons_of_pos _ (fun x => x != hyphens) a l h

theorem dropWhile_ne_hyphens_cons_stop (a : List Char) (l : List (List Char))
    (h : (a != hyphens) = false) :
    List.dropWhile (fun x => x != hyphens) (a :: l) = a :: l :=
  @List.dropWhile_cons_of_neg _ (fun x => x != hyphens) a l (by simp [h])

theorem stripFrontmatter_cons (first : List Char) (rest : List (List Char)) :
    stripFrontmatter (first :: rest) =
      if first = hyphens ∧ rest.any (· == hyphens) then
        (rest.dropWhile (· != hyphens)).tail
      else first :: rest := rfl

theorem stripFrontmatter_formatThoughts (t : Thoughts) (stamp : Stamp)
    (proj : String)
    (h1 : ∀ c ∈ stamp.timeDisplay.data, c ≠ '\n')
    (h2 : ∀ c ∈ stamp.dateDisplay.data, c ≠ '\n')
    (h3 : ∀ c ∈ stamp.iso.data, c ≠ '\n')
    (h4 : ∀ c ∈ (toString stamp.epochMs).data, c ≠ '\n')
    (h5 : ∀ c ∈ proj.data, c ≠ '\n') :
    stripFrontmatter (splitLines (formatThoughts t stamp proj).data) =
      [] :: (splitLines (strJoin "\n\n" (thoughtSections t)).data ++ [[]]) := by
  have d1 : (("title: \"".data ++ stamp.timeDisplay.data ++ " - ".data ++
      stamp.dateDisplay.data ++ "\"".data) != hyphens) = true :=
    ne_hyphens_of_head 't' (by decide) _
  have d2 : (("date: ".data ++ stamp.iso.data) != hyphens) = true :=
    ne_hyphens_of_head 'd' (by decide) _
  have d3 : (("timestamp: ".data ++ (toString stamp.epochMs).data) != hyphens) = true :=
    ne_hyphens_of_head 't' (by decide) _
  have d4 : (("project: ".data ++ proj.data) != hyphens) = true :=
    ne_hyphens_of_head 'p' (by decide) _
  rw [formatThoughts_lines t stamp proj h1 h2 h3 h4 h5]
  rw [stripFrontmatter_cons]
  rw [if_pos]
  · rw [dropWhile_ne_hyphens_cons_hit _ _ d1, dropWhile_ne_hyphens_cons_hit _ _ d2,
      dropWhile_ne_hyphens_cons_hit _ _ d3, dropWhile_ne_hyphens_cons_hit _ _ d4,
      dropWhile_ne_hyphens_cons_stop _ _ (by simp [hyphens])]
    rfl
  · refine ⟨rfl, ?_⟩
    refine List.any_eq_true.2 ⟨"---".data, ?_, by simp [hyphens]⟩
    simp

theorem isHeaderLine_hdr (x : List Char) :
    isHeaderLine ("## ".data ++ x) = true := by
  show isHeaderLine ('#' :: '#' :: ' ' :: x) = true
  simp [isHeaderLine, List.isPrefixOf]

theorem block_lines_good (name val : String)
    (hn : ∀ c ∈ name.data, c ≠ '\n')
    (hv : ∀ c ∈ val.data, c.isWhitespace = true) :
    ∀ l ∈ splitLines ("## " ++ name ++ "\n\n" ++ val).data,
      isHeaderLine l = true ∨ ∀ c ∈ l, c.isWhitespace = true := by
  have e : ("## " ++ name ++ "\n\n" ++ val).data =
      ("## ".data ++ name.data) ++ '\n' :: ('\n' :: val.data) := by
    simp only [String.data_append]
    simp [List.append_assoc]
  rw [e, splitLines_append_nl, splitLines_cons_nl]
  have lit : ∀ c ∈ "## ".data, c ≠ '\n' := by decide
  rw [splitLines_noNl _ (noNl_append lit hn)]
  intro l hl
  rcases List.mem_cons.1 hl with h | h
  · subst h
    exact Or.inl (isHeaderLine_hdr name.data)
  · rcases List.mem_cons.1 h with h' | h'
    · subst h'
      exact Or.inr (by intro c hc; cases hc)
    · refine Or.inr ?_
      intro c hc
      exact hv c (mem_splitLines_subset val.data l h' c hc)

theorem strJoin_blocks_lines_good : ∀ blocks : List String,
    (∀ b ∈ blocks, ∃ name val, b = "## " ++ name ++ "\n\n" ++ val ∧
      (∀ c ∈ name.data, c ≠ '\n') ∧ (∀ c ∈ val.data, c.isWhitespace = true)) →
    ∀ l ∈ splitLines (strJoin "\n\n" blocks).data,
      isHeaderLine l = true ∨ ∀ c ∈ l, c.isWhitespace = true := by
  intro blocks
  induction blocks with
  | nil =>
    intro _ l hl
    rcases List.mem_singleton.1 hl with rfl
    exact Or.inr (by intro c hc; cases hc)
  | cons b rest ih =>
    intro hb l hl
    obtain ⟨name, val, hbe, hn, hv⟩ := hb b (List.mem_cons_self _ _)
    cases rest with
    | nil =>
      have hj : strJoin "\n\n" [b] = b := rfl
      rw [hj, hbe] at hl
      exact block_lines_good name val hn hv l hl
    | cons b2 rest2 =>
      have hj : (strJoin "\n\n" (b :: b2 :: rest2)).data =
          b.data ++ '\n' :: ('\n' :: (strJoin "\n\n" (b2 :: rest2)).data) := by
        have : strJoin "\n\n" (b :: b2 :: rest2) =
            b ++ "\n\n" ++ strJoin "\n\n" (b2 :: rest2) := rfl
        rw [this]
        simp only [String.data_append]
        simp [List.append_assoc]
      rw [hj, splitLines_append_nl, splitLines_cons_nl] at hl
      rcases List.mem_append.1 hl with h | h
      · rw [hbe] at h
        exact block_lines_good name val hn hv l h
      · rcases List.mem_cons.1 h with h' | h'
        · subst h'
          exact Or.inr (by intro c hc; cases hc)
        · exact ih (fun x hx => hb x (List.mem_cons_of_mem _ hx)) l h'

theorem thoughtSections_good (t : Thoughts) (hu : wsOpt t.user)
    (hp : wsOpt t.projectNotes) (hr : wsOpt t.reflections) :
    ∀ b ∈ thoughtSections t, ∃ name val, b = "## " ++ name ++ "\n\n" ++ val ∧
      (∀ c ∈ name.data, c ≠ '\n') ∧ (∀ c ∈ val.data, c.isWhitespace = true) := by
  intro b hb
  rw [thoughtSections] at hb
  rcases List.mem_append.1 hb with h | h
  · rcases List.mem_append.1 h with h' | h'
    · cases hcu : t.user with
      | none => rw [hcu] at h'; cases h'
      | some s =>
        rw [hcu] at h'
        have hm : b ∈ (if s = "" then ([] : List String) else ["## User\n\n" ++ s]) := h'
        by_cases hs : s = ""
        · rw [if_pos hs] at hm; cases hm
        · rw [if_neg hs] at hm
          rcases List.mem_singleton.1 hm with rfl
          refine ⟨"User", s, rfl, by decide, ?_⟩
          rw [wsOpt, hcu] at hu
          exact hu
    · cases hcp : t.projectNotes with
      | none => rw [hcp] at h'; cases h'
      | some s =>
        rw [hcp] at h'
        have hm : b ∈ (if s = "" then ([] : List String) else ["## Project\n\n" ++ s]) := h'
        by_cases hs : s = ""
        · rw [if_pos hs] at hm; cases hm
        · rw [if_neg hs] at hm
          rcases List.mem_singleton.1 hm with rfl
          refine ⟨"Project", s, rfl, by decide, ?_⟩
          rw [wsOpt, hcp] at hp
          exact hp
  · cases hcr : t.reflections with
    | none => rw [hcr] at h; cases h
    | some s =>
      rw [hcr] at h
      have hm : b ∈ (if s = "" then ([] : List String) else ["## Reflections\n\n" ++ s]) := h
      by_cases hs : s = ""
      · rw [if_pos hs] at hm; cases hm
      · rw [if_neg hs] at hm
        rcases List.mem_singleton.1 hm with rfl
        refine ⟨"Reflections", s, rfl, by decide, ?_⟩
        rw [wsOpt, hcr] at hr
        exact hr

theorem data_mk (l : List Char) : (String.mk l).data = l := rfl

theorem extractSearchableText_fst (content : String) :
    (extractSearchableText content).1 =
      String.mk (joinSp ((stripFrontmatter (splitLines content.data)).filter
        fun l => !isHeaderLine l)) := rfl

theorem extract_formatThoughts_ws (t : Thoughts) (stamp : Stamp) (proj : String)
    (h1 : ∀ c ∈ stamp.timeDisplay.data, c ≠ '\n')
    (h2 : ∀ c ∈ stamp.dateDisplay.data, c ≠ '\n')
    (h3 : ∀ c ∈ stamp.iso.data, c ≠ '\n')
    (h4 : ∀ c ∈ (toString stamp.epochMs).data, c ≠ '\n')
    (h5 : ∀ c ∈ proj.data, c ≠ '\n')
    (hu : wsOpt t.user) (hp : wsOpt t.projectNotes) (hr : wsOpt t.reflections) :
    (jsTrimL (extractSearchableText
      (formatThoughts t stamp proj)).1.data).isEmpty = true := by
  rw [extractSearchableText_fst, data_mk]
  have hw : ∀ c ∈ joinSp
      ((stripFrontmatter
        (splitLines (formatThoughts t stamp proj).data)).filter
        fun l => !isHeaderLine l), c.isWhitespace = true := by
    intro c hc
    rcases mem_joinSp _ c hc with h | ⟨l, hl, hcl⟩
    · subst h
      decide
    · have hl1 := (List.mem_filter.1 hl).1
      have hl2 := (List.mem_filter.1 hl).2
      rw [stripFrontmatter_formatThoughts t stamp proj h1 h2 h3 h4 h5] at hl1
      rcases List.mem_cons.1 hl1 with h' | h'
      · subst h'
        cases hcl
      · rcases List.mem_append.1 h' with h'' | h''
        · rcases strJoin_blocks_lines_good (thoughtSections t)
            (thoughtSections_good t hu hp hr) l h'' with hhd | hws
          · rw [hhd] at hl2
            cases hl2
          · exact hws c hcl
        · rcases List.mem_singleton.1 h'' with rfl
          cases hcl
  rw [jsTrimL_of_ws _ hw]
  rfl


/-- **C4.**  When every supplied section value is empty or whitespace-only,
`writeThoughts` still succeeds: it writes the entry file whose lines start
with the full metadata block (title, ISO date, epoch-millisecond timestamp,
project tag between `---` fences), the embedding flag is `true`, and no
companion vector record is written - the set of `.embedding` files of the
day directory is unchanged, because the extracted searchable text of the
formatted entry is empty after trimming. -/
theorem whitespace_sections_metadata_no_record (eng : WriteEngine)
    (mkdirOk : Bool) (tree : EntriesTree) (stamp : Stamp)
    (ds fb proj : String) (t : Thoughts)
    (hdir : dirHas tree ds = true ∨ mkdirOk = true)
    (h1 : ∀ c ∈ stamp.timeDisplay.data, c ≠ '\n')
    (h2 : ∀ c ∈ stamp.dateDisplay.data, c ≠ '\n')
    (h3 : ∀ c ∈ stamp.iso.data, c ≠ '\n')
    (h4 : ∀ c ∈ (toString stamp.epochMs).data, c ≠ '\n')
    (h5 : ∀ c ∈ proj.data, c ≠ '\n')
    (hu : wsOpt t.user) (hp : wsOpt t.projectNotes) (hr : wsOpt t.reflections) :
    writeThoughts eng mkdirOk tree stamp ds fb proj t =
        Except.ok (true, treeWrite tree ds (fb ++ ".md")
          (formatThoughts t stamp proj)) ∧
      splitLines (formatThoughts t stamp proj).data =
        "---".data ::
          ("title: \"".data ++ stamp.timeDisplay.data ++ " - ".data ++
            stamp.dateDisplay.data ++ "\"".data) ::
          ("date: ".data ++ stamp.iso.data) ::
          ("timestamp: ".data ++ (toString stamp.epochMs).data) ::
          ("project: ".data ++ proj.data) ::
          "---".data :: [] ::
          (splitLines (strJoin "\n\n" (thoughtSections t)).data ++ [[]]) ∧
      (jsTrimL (extractSearchableText
        (formatThoughts t stamp proj)).1.data).isEmpty = true ∧
      ∀ nm, jsEndsWith nm ".embedding" = true →
        dirHasFile (treeWrite tree ds (fb ++ ".md")
          (formatThoughts t stamp proj)) ds nm = dirHasFile tree ds nm := by
  have hT : (jsTrimL (extractSearchableText
      (formatThoughts t stamp proj)).1.data).isEmpty = true :=
    extract_formatThoughts_ws t stamp proj h1 h2 h3 h4 h5 hu hp hr
  have hcond : (!dirHas tree ds && !mkdirOk) = false := by
    rcases hdir with h | h <;> simp [h]
  refine ⟨?_, formatThoughts_lines t stamp proj h1 h2 h3 h4 h5, hT, ?_⟩
  · rw [writeThoughts, if_neg (by simp [hcond])]
    show Except.ok (generateEmbeddingForEntry eng
      (treeWrite tree ds (fb ++ ".md") (formatThoughts t stamp proj)) ds
      (fb ++ ".md") (formatThoughts t stamp proj) stamp.epochMs proj) = _
    rw [genEmb_empty _ _ _ _ _ _ _ hT]
  · intro nm hemb
    have hbeq : (nm == fb ++ ".md") = false := by
      cases hx : (nm == fb ++ ".md") with
      | false => rfl
      | true =>
        have he : nm = fb ++ ".md" := by simpa using hx
        rw [he] at hemb
        exact (ends_md_embedding_absurd (fb ++ ".md")
          (jsEndsWith_append fb ".md") hemb).elim
    rw [dirHasFile_treeWrite, hbeq, Bool.or_false]

/-- **C4, witness**: whitespace-only section values on an empty tree. -/
theorem whitespace_sections_metadata_no_record_witness :
    writeThoughts egOkEngine true [] egStamp "2025-05-31" "10-00-00-000000"
        "general" egWsThoughts =
      Except.ok (true, treeWrite [] "2025-05-31" ("10-00-00-000000" ++ ".md")
        (formatThoughts egWsThoughts egStamp "general")) ∧
    splitLines (formatThoughts egWsThoughts egStamp "general").data =
      "---".data ::
        ("title: \"".data ++ egStamp.timeDisplay.data ++ " - ".data ++
          egStamp.dateDisplay.data ++ "\"".data) ::
        ("date: ".data ++ egStamp.iso.data) ::
        ("timestamp: ".data ++ (toString egStamp.epochMs).data) ::
        ("project: ".data ++ "general".data) ::
        "---".data :: [] ::
        (splitLines (strJoin "\n\n" (thoughtSections egWsThoughts)).data ++ [[]]) ∧
    (jsTrimL (extractSearchableText
      (formatThoughts egWsThoughts egStamp "general")).1.data).isEmpty = true ∧
    ∀ nm, jsEndsWith nm ".embedding" = true →
      dirHasFile (treeWrite [] "2025-05-31" ("10-00-00-000000" ++ ".md")
        (formatThoughts egWsThoughts egStamp "general")) "2025-05-31" nm =
        dirHasFile [] "2025-05-31" nm :=
  whitespace_sections_metadata_no_record egOkEngine true [] egStamp
    "2025-05-31" "10-00-00-000000" "general" egWsThoughts (Or.inr rfl)
    (by decide) (by decide) (by decide) (by decide) (by decide)
    (by decide) (by decide) (by decide)


/-! ### C2: the backfill count and its non-idempotence -/

theorem gmStep_file (eng : WriteEngine) (ctx : BackfillCtx)
    (st : ℕ × EntriesTree) (a b : String) :
    gmStep eng ctx st (FsNode.file a b) = st := rfl

theorem gmStep_dir (eng : WriteEngine) (ctx : BackfillCtx)
    (st : ℕ × EntriesTree) (day : String) (files : List (String × String)) :
    gmStep eng ctx st (FsNode.dir day files) =
      if matchDay day then backfillDir eng ctx day files st else st := rfl

theorem dayNames_file_cons (a b : String) (rest : EntriesTree) :
    dayNames (FsNode.file a b :: rest) = dayNames rest := rfl

theorem dayNames_dir_cons (d : String) (fs : List (String × String))
    (rest : EntriesTree) :
    dayNames (FsNode.dir d fs :: rest) = d :: dayNames rest := rfl

theorem countMissing_file_cons (a b : String) (rest : EntriesTree) :
    countMissing (FsNode.file a b :: rest) = countMissing rest := rfl

theorem countMissing_dir_cons (d : String) (fs : List (String × String))
    (rest : EntriesTree) :
    countMissing (FsNode.dir d fs :: rest) =
      (if matchDay d then countMissingDir fs else 0) + countMissing rest := rfl

theorem mem_dayNames_of_dir (d : String) (fs : List (String × String))
    (l : EntriesTree) (h : FsNode.dir d fs ∈ l) : d ∈ dayNames l :=
  List.mem_filterMap.2 ⟨FsNode.dir d fs, h, rfl⟩

theorem backfillFile_count (eng : WriteEngine) (ctx : BackfillCtx) (d : String)
    (st : ℕ × EntriesTree) (f : String × String) :
    (backfillFile eng ctx d st f).1 =
      if dirHasFile st.2 d (embeddingPathOf f.1) then st.1 else st.1 + 1 := by
  rw [backfillFile]
  by_cases h : dirHasFile st.2 d (embeddingPathOf f.1) = true
  · simp [h]
  · have h2 : dirHasFile st.2 d (embeddingPathOf f.1) = false := by simpa using h
    simp [h2]

theorem backfillFile_tree_cases (eng : WriteEngine) (ctx : BackfillCtx)
    (d : String) (st : ℕ × EntriesTree) (f : String × String) :
    (backfillFile eng ctx d st f).2 = st.2 ∨
      ∃ enc, (backfillFile eng ctx d st f).2 =
        treeWrite st.2 d (embeddingPathOf f.1) enc := by
  rw [backfillFile]
  by_cases h : dirHasFile st.2 d (embeddingPathOf f.1) = true
  · rw [if_pos h]
    exact Or.inl rfl
  · rw [if_neg h]
    rcases genEmb_tree_cases eng st.2 d f.1 f.2
        (((extractTimestampFromPath d f.1).map ctx.dateToMs).getD ctx.nowMs)
        ((ctx.extractProject f.2).getD ctx.fallbackProject) with h2 | ⟨enc, h2⟩
    · exact Or.inl h2
    · exact Or.inr ⟨enc, h2⟩

theorem backfillFile_dirFiles_other (eng : WriteEngine) (ctx : BackfillCtx)
    (d d' : String) (st : ℕ × EntriesTree) (f : String × String)
    (hne : d' ≠ d) :
    dirFiles (backfillFile eng ctx d st f).2 d' = dirFiles st.2 d' := by
  rcases backfillFile_tree_cases eng ctx d st f with h | ⟨enc, h⟩
  · rw [h]
  · rw [h, dirFiles_treeWrite_other _ _ _ _ _ hne]

theorem backfillFile_hasFile_other (eng : WriteEngine) (ctx : BackfillCtx)
    (d : String) (st : ℕ × EntriesTree) (f : String × String) (nm : String)
    (hne : nm ≠ embeddingPathOf f.1) :
    dirHasFile (backfillFile eng ctx d st f).2 d nm = dirHasFile st.2 d nm := by
  rcases backfillFile_tree_cases eng ctx d st f with h | ⟨enc, h⟩
  · rw [h]
  · rw [h, dirHasFile_treeWrite]
    have hb : (nm == embeddingPathOf f.1) = false := by simp [hne]
    rw [hb, Bool.or_false]

theorem foldl_backfillFile_count (eng : WriteEngine) (ctx : BackfillCtx)
    (d : String) (files : List (String × String)) :
    ∀ (todo : List (String × String)) (st : ℕ × EntriesTree),
      (∀ f ∈ todo, jsEndsWith f.1 ".md" = true) →
      todo.Pairwise (fun a b => a.1 ≠ b.1) →
      (∀ f ∈ todo, dirHasFile st.2 d (embeddingPathOf f.1) =
        files.any (·.1 == embeddingPathOf f.1)) →
      (todo.foldl (backfillFile eng ctx d) st).1 =
        st.1 + todo.countP fun f => !(files.any (·.1 == embeddingPathOf f.1)) := by
  intro todo
  induction todo with
  | nil =>
    intro st _ _ _
    rw [List.foldl_nil]
    rfl
  | cons f0 rest ih =>
    intro st hmd hpw hinv
    rw [List.foldl_cons]
    have h0 : dirHasFile st.2 d (embeddingPathOf f0.1) =
        files.any (·.1 == embeddingPathOf f0.1) :=
      hinv f0 (List.mem_cons_self _ _)
    have hinv2 : ∀ f ∈ rest, dirHasFile (backfillFile eng ctx d st f0).2 d
        (embeddingPathOf f.1) = files.any (·.1 == embeddingPathOf f.1) := by
      intro f hf
      have hne : embeddingPathOf f.1 ≠ embeddingPathOf f0.1 := by
        intro he
        have heq : f.1 = f0.1 := embeddingPathOf_inj _ _
          (hmd f (List.mem_cons_of_mem _ hf)) (hmd f0 (List.mem_cons_self _ _)) he
        exact (List.pairwise_cons.1 hpw).1 f hf heq.symm
      rw [backfillFile_hasFile_other eng ctx d st f0 _ hne]
      exact hinv f (List.mem_cons_of_mem _ hf)
    rw [ih (backfillFile eng ctx d st f0)
      (fun f hf => hmd f (List.mem_cons_of_mem _ hf))
      (List.pairwise_cons.1 hpw).2 hinv2]
    rw [backfillFile_count, List.countP_cons]
    by_cases hx : files.any (·.1 == embeddingPathOf f0.1) = true
    · rw [if_pos (h0.trans hx)]
      simp [hx]
    · have hx2 : files.any (·.1 == embeddingPathOf f0.1) = false := by
        cases hb : files.any (·.1 == embeddingPathOf f0.1) with
        | true => exact absurd hb hx
        | false => rfl
      rw [if_neg (by rw [h0, hx2]; simp)]
      simp [hx2]
      omega

theorem backfillDir_count (eng : WriteEngine) (ctx : BackfillCtx) (d : String)
    (files : List (String × String)) (st : ℕ × EntriesTree)
    (hnd : (files.map (·.1)).Nodup) (hdf : dirFiles st.2 d = files) :
    (backfillDir eng ctx d files st).1 = st.1 + countMissingDir files := by
  rw [backfillDir, countMissingDir]
  refine foldl_backfillFile_count eng ctx d files _ st ?_ ?_ ?_
  · intro f hf
    exact (List.mem_filter.1 hf).2
  · exact List.Pairwise.filter _ (List.pairwise_map.1 hnd)
  · intro f hf
    rw [dirHasFile, hdf]

theorem foldl_backfillFile_dirFiles_other (eng : WriteEngine)
    (ctx : BackfillCtx) (d d' : String) (hne : d' ≠ d) :
    ∀ (todo : List (String × String)) (st : ℕ × EntriesTree),
      dirFiles (todo.foldl (backfillFile eng ctx d) st).2 d' = dirFiles st.2 d' := by
  intro todo
  induction todo with
  | nil =>
    intro st
    rfl
  | cons f rest ih =>
    intro st
    rw [List.foldl_cons, ih]
    exact backfillFile_dirFiles_other eng ctx d d' st f hne

theorem backfillDir_dirFiles_other (eng : WriteEngine) (ctx : BackfillCtx)
    (day : String) (files : List (String × String)) (st : ℕ × EntriesTree)
    (d' : String) (hne : d' ≠ day) :
    dirFiles (backfillDir eng ctx day files st).2 d' = dirFiles st.2 d' := by
  rw [backfillDir]
  exact foldl_backfillFile_dirFiles_other eng ctx day d' hne _ st

theorem dirFiles_of_mem_nodup :
    ∀ (tree : EntriesTree), (dayNames tree).Nodup →
      ∀ d fs, FsNode.dir d fs ∈ tree → dirFiles tree d = fs := by
  intro tree
  induction tree with
  | nil =>
    intro _ d fs h
    cases h
  | cons n rest ih =>
    intro hnd d fs h
    rcases List.mem_cons.1 h with h1 | h1
    · rw [← h1]
      exact dirFiles_cons_hit d fs rest d (by simp)
    · cases n with
      | file a b =>
        rw [dirFiles_cons_miss _ _ _ (by simp [isDirNamed])]
        rw [dayNames_file_cons] at hnd
        exact ih hnd d fs h1
      | dir d2 fs2 =>
        rw [dayNames_dir_cons] at hnd
        have hne : (d2 == d) = false := by
          have hd : d ∈ dayNames rest := mem_dayNames_of_dir d fs rest h1
          have hne2 : d2 ≠ d := by
            intro he
            subst he
            exact (List.nodup_cons.1 hnd).1 hd
          simp [hne2]
        rw [dirFiles_cons_miss _ _ _ (by simp [isDirNamed, hne])]
        exact ih (List.nodup_cons.1 hnd).2 d fs h1

theorem genMiss_go_count (eng : WriteEngine) (ctx : BackfillCtx) :
    ∀ (todo : List FsNode) (st : ℕ × EntriesTree),
      (∀ d files, FsNode.dir d files ∈ todo →
        dirFiles st.2 d = files ∧ (files.map (·.1)).Nodup) →
      (dayNames todo).Nodup →
      (todo.foldl (gmStep eng ctx) st).1 = st.1 + countMissing todo := by
  intro todo
  induction todo with
  | nil =>
    intro st _ _
    rw [List.foldl_nil]
    rfl
  | cons n rest ih =>
    intro st hinv hnd
    rw [List.foldl_cons]
    cases n with
    | file a b =>
      rw [gmStep_file, countMissing_file_cons]
      rw [dayNames_file_cons] at hnd
      exact ih st (fun d files h => hinv d files (List.mem_cons_of_mem _ h)) hnd
    | dir day files =>
      rw [gmStep_dir, countMissing_dir_cons]
      rw [dayNames_dir_cons] at hnd
      obtain ⟨hdf, hndf⟩ := hinv day files (List.mem_cons_self _ _)
      by_cases hm : matchDay day = true
      · rw [if_pos hm, if_pos hm]
        have hinv2 : ∀ d fs, FsNode.dir d fs ∈ rest →
            dirFiles (backfillDir eng ctx day files st).2 d = fs ∧
              (fs.map (·.1)).Nodup := by
          intro d fs h
          have hne : d ≠ day := by
            intro he
            subst he
            exact (List.nodup_cons.1 hnd).1 (mem_dayNames_of_dir d fs rest h)
          refine ⟨?_, (hinv d fs (List.mem_cons_of_mem _ h)).2⟩
          rw [backfillDir_dirFiles_other eng ctx day files st d hne]
          exact (hinv d fs (List.mem_cons_of_mem _ h)).1
        rw [ih (backfillDir eng ctx day files st) hinv2 (List.nodup_cons.1 hnd).2]
        rw [backfillDir_count eng ctx day files st hndf hdf]
        omega
      · rw [if_neg hm, if_neg hm]
        rw [ih st (fun d fs h => hinv d fs (List.mem_cons_of_mem _ h))
          (List.nodup_cons.1 hnd).2]
        omega

/-- **C2.**  Amended count contract of the backfill: on a well-formed storage
tree, the value returned by `generateMissingEmbeddings` equals the number of
entry files that lacked a companion vector record at the start of the run -
the number of processing attempts, not the number of records actually
created.  An attempt that produces no record (empty extracted text, or an
embedding/persistence failure) is counted anyway and recounted by every
subsequent run, which is why consecutive runs are not idempotent in general
(see the counterexample). -/
theorem generateMissingEmbeddings_counts_missing (eng : WriteEngine)
    (ctx : BackfillCtx) (tree : EntriesTree) (hwf : wfTree tree) :
    (generateMissingEmbeddings eng ctx tree).1 = countMissing tree := by
  rw [generateMissingEmbeddings]
  rw [genMiss_go_count eng ctx tree (0, tree)
    (fun d files h =>
      ⟨dirFiles_of_mem_nodup tree hwf.1 d files h, hwf.2 d files h⟩)
    hwf.1]
  simp

/-- **C2, witness**: on the one-entry tree the returned value is the static
count of entries lacking a record. -/
theorem generateMissingEmbeddings_counts_missing_witness :
    wfTree egC2Tree ∧
      (generateMissingEmbeddings egOkEngine egCtx egC2Tree).1 =
        countMissing egC2Tree := by
  have hwf : wfTree egC2Tree := by
    constructor
    · decide
    · intro d fs h
      have h2 := List.mem_singleton.1 h
      injection h2 with h3 h4
      subst h4
      decide
  exact ⟨hwf, generateMissingEmbeddings_counts_missing egOkEngine egCtx
    egC2Tree hwf⟩

/-- **C2, counterexample.**  One entry file with empty content and a backend
that always succeeds: the first run returns 1 yet creates no record (the tree
is unchanged and the companion record is still absent, because empty
extracted text is skipped), so the returned value is not the number of
records created; and the second run returns 1 again, not 0, so the backfill
is not idempotent. -/
theorem backfill_not_idempotent :
    generateMissingEmbeddings egOkEngine egCtx egC2Tree = (1, egC2Tree) ∧
      generateMissingEmbeddings egOkEngine egCtx
          (generateMissingEmbeddings egOkEngine egCtx egC2Tree).2 =
        (1, egC2Tree) ∧
      dirHasFile (generateMissingEmbeddings egOkEngine egCtx egC2Tree).2
        "2024-01-01" (embeddingPathOf "10-00-00-000000.md") = false := by
  decide

end Journal
